import Mathlib

/-!
# UDP chat relay: the serial receive loop of `startServer` (`src/main.go`)

The relay keeps a Go `map[string]string` from the textual form of a sender's
`*net.UDPAddr` to a display name and, for every datagram read, either records a
join, removes a leaver, or rebroadcasts the text to the other entries.

Conventions of the embedding:

* Go strings are Lean `String`s (datagram payloads are taken to be valid UTF-8);
  every string operation is defined on the character list `String.data`.
* The Go map is an association list with pairwise distinct keys
  (see `WF`); `range` visits the list front to back.  Go leaves the
  iteration order unspecified, so the theorems count datagrams per key
  instead of fixing an order.
* A run-time panic (index out of range) is the result `none`.
* `conn.WriteToUDP` is recorded as a `Send`; whether the transport reported an
  error for the `i`-th write of a handling is an input `werr i`.
* `net.ParseIP` hands text whose first special character is a `:` to the
  IPv6 parser of the Go library; that parser is a parameter `parseIPv6`.
-/

namespace UDPChat

/-! ## Go `strings` -/

/-- White space in the sense of `unicode.IsSpace`, as removed by `strings.TrimSpace`. -/
def isSpace (c : Char) : Bool :=
  let n := c.toNat
  (0x09 ≤ n && n ≤ 0x0D) || n == 0x20 || n == 0x85 || n == 0xA0 || n == 0x1680 ||
  (0x2000 ≤ n && n ≤ 0x200A) || n == 0x2028 || n == 0x2029 || n == 0x202F ||
  n == 0x205F || n == 0x3000

/-- Go `strings.TrimSpace`: drop leading and trailing white space. -/
def TrimSpace (s : String) : String :=
  ⟨((s.data.dropWhile isSpace).reverse.dropWhile isSpace).reverse⟩

/-- Go `strings.HasPrefix`. -/
def HasPrefix (s p : String) : Bool :=
  p.data.isPrefixOf s.data

/-- Go `strings.TrimPrefix`: `s` without the leading `p`, or `s` itself. -/
def TrimPrefix (s p : String) : String :=
  if HasPrefix s p then ⟨s.data.drop p.data.length⟩ else s

/-- Pieces of a character list between occurrences of `sep`. -/
def splitChars (sep : Char) : List Char → List (List Char)
  | [] => [[]]
  | c :: cs =>
    if c = sep then [] :: splitChars sep cs
    else
      match splitChars sep cs with
      | [] => [[c]]
      | p :: ps => (c :: p) :: ps

/-- Go `strings.Split(s, sep)` for a one-character separator (the relay only splits on ":"). -/
def Split (s : String) (sep : Char) : List String :=
  (splitChars sep s.data).map String.mk

/-! ## Go `strconv` / `fmt` -/

/-- Digits of `n` in base `b` (most significant first), lower-case; `fuel` bounds the recursion. -/
def digitsAux (b : Nat) : Nat → Nat → List Char
  | 0, _ => []
  | fuel + 1, n =>
    if n < b then [Nat.digitChar n]
    else digitsAux b fuel (n / b) ++ [Nat.digitChar (n % b)]

/-- Decimal text of a natural number (`itoa.Uitoa`). -/
def uitoa (n : Nat) : String := ⟨digitsAux 10 (n + 1) n⟩

/-- Go `itoa.Itoa`. -/
def itoa (i : Int) : String :=
  if i < 0 then "-" ++ uitoa (-i).toNat else uitoa i.toNat

/-- Lower-case hexadecimal text without leading zeros (`appendHex`). -/
def hex (n : Nat) : String := ⟨digitsAux 16 (n + 1) n⟩

/-- The white-space skipping of `fmt.Sscanf` before a verb: a newline is an error (`none`),
except right after a carriage return. -/
def skipSpace : List Char → Option (List Char)
  | [] => some []
  | c :: cs =>
    if c = '\r' ∧ cs.head? = some '\n' then skipSpace cs
    else if c = '\n' then none
    else if isSpace c then skipSpace cs
    else some (c :: cs)

/-- Value of a string of decimal digits, `none` on any other character
(`strconv.ParseUint` in base 10). -/
def parseDigits : List Char → Nat → Option Nat
  | [], acc => some acc
  | c :: cs, acc =>
    if '0' ≤ c ∧ c ≤ '9' then parseDigits cs (acc * 10 + (c.toNat - 48)) else none

/-- The outcome of `fmt.Sscanf(s, "%d", &port)` for an `int` of 64 bits: the scanned
value, or `none` when the scan fails and `port` keeps its value.  The token is an optional
sign followed by the longest run of the digits `0123456789`; text after the token is left
unread. -/
def scanInt (s : String) : Option Int :=
  match skipSpace s.data with
  | none => none
  | some [] => none
  | some (c :: cs) =>
    let neg := c = '-'
    let body := if c = '+' ∨ c = '-' then cs else c :: cs
    let tok := body.takeWhile (fun d => '0' ≤ d ∧ d ≤ '9')
    if tok = [] then none
    else
      match parseDigits tok 0 with
      | none => none
      | some v =>
        if neg then (if v ≤ 2 ^ 63 then some (-(v : Int)) else none)
        else (if v < 2 ^ 63 then some (v : Int) else none)

/-! ## Go `net` -/

/-- Go `net.IP`: a byte slice, of length 4 or 16 when valid, empty when nil. -/
abbrev IP := List Nat

/-- Go `net.UDPAddr`. -/
structure UDPAddr where
  IP : IP
  Port : Int
  Zone : String
  deriving DecidableEq, Repr

/-- The twelve bytes that precede an IPv4 address in its 16-byte form (`v4InV6Prefix`). -/
def v4InV6Prefix : List Nat := [0, 0, 0, 0, 0, 0, 0, 0, 0, 0, 0xff, 0xff]

/-- Go `IP.To4`: the four bytes of an IPv4 address in either representation. -/
def IP.To4 (ip : IP) : Option (List Nat) :=
  if ip.length = 4 then some ip
  else if ip.length = 16 ∧ ip.take 10 = List.replicate 10 0 ∧ (ip.drop 10).take 2 = [0xff, 0xff]
  then some (ip.drop 12)
  else none

/-- Sixteen-bit groups of a 16-byte address. -/
def groups : List Nat → List Nat
  | a :: b :: rest => (a * 256 + b) :: groups rest
  | _ => []

/-- Number of leading zero groups. -/
def zeroRun : List Nat → Nat
  | 0 :: rest => zeroRun rest + 1
  | _ => 0

/-- The first longest run of at least two zero groups, as `(start, end)`;
`(255, 255)` when there is none. -/
def longestZeros (g : List Nat) : Nat × Nat :=
  (List.range 8).foldl
    (fun (z : Nat × Nat) i =>
      let l := zeroRun (g.drop i)
      if 2 ≤ l ∧ z.2 - z.1 < l then (i, i + l) else z)
    (255, 255)

/-- The loop that writes the groups of an IPv6 address, with `::` for the run `[zs, ze)`. -/
def string6Aux (g : List Nat) (zs ze : Nat) : Nat → Nat → List Char
  | 0, _ => []
  | fuel + 1, i =>
    if 8 ≤ i then []
    else if i = zs then
      ':' :: ':' :: (if 8 ≤ ze then [] else (hex (g.getD ze 0)).data ++ string6Aux g zs ze fuel (ze + 1))
    else
      (if 0 < i then [':'] else []) ++ (hex (g.getD i 0)).data ++ string6Aux g zs ze fuel (i + 1)

/-- Text of a 16-byte address that is not an IPv4 one. -/
def string6 (ip : List Nat) : String :=
  let g := groups ip
  let z := longestZeros g
  ⟨string6Aux g z.1 z.2 8 0⟩

/-- Two hexadecimal digits per byte (`hexString`). -/
def hexString (ip : List Nat) : List Char :=
  ip.flatMap (fun b => [Nat.digitChar (b / 16), Nat.digitChar (b % 16)])

/-- Go `IP.String`. -/
def IP.String (ip : IP) : String :=
  if ip.length = 0 then "<nil>"
  else if ip.length ≠ 4 ∧ ip.length ≠ 16 then ⟨'?' :: hexString ip⟩
  else
    match IP.To4 ip with
    | some p4 => ⟨List.intercalate ['.'] (p4.map (fun b => (uitoa b).data))⟩
    | none => string6 ip

/-- Go `net.JoinHostPort`: a host with a colon is put in brackets. -/
def JoinHostPort (host port : String) : String :=
  if ':' ∈ host.data then "[" ++ host ++ "]:" ++ port else host ++ ":" ++ port

/-- Go `(*UDPAddr).String`. -/
def UDPAddr.String (a : UDPAddr) : String :=
  let ip := if a.IP.length = 0 then "" else IP.String a.IP
  if a.Zone ≠ "" then JoinHostPort (ip ++ "%" ++ a.Zone) (itoa a.Port)
  else JoinHostPort ip (itoa a.Port)

/-- The scan of `parseIPv4`: decimal fields of at most 255 without a leading zero, separated
by single dots, exactly four of them.  `prev` is the character before the current one. -/
def parseIPv4Aux : List Char → Option Char → List Nat → Nat → Nat → Option (List Nat)
  | [], _, fields, val, _ => if fields.length < 3 then none else some (fields ++ [val])
  | c :: cs, prev, fields, val, digLen =>
    if '0' ≤ c ∧ c ≤ '9' then
      if digLen = 1 ∧ val = 0 then none
      else if 255 < val * 10 + (c.toNat - 48) then none
      else parseIPv4Aux cs (some c) fields (val * 10 + (c.toNat - 48)) (digLen + 1)
    else if c = '.' then
      if prev = none ∨ cs = [] ∨ prev = some '.' then none
      else if fields.length = 3 then none
      else parseIPv4Aux cs (some c) (fields ++ [val]) 0 0
    else none

/-- Go `net.ParseIP`: the 16-byte form of the address, or nil (`[]`).  The first of `.`, `:`
and `%` in the text selects the parser; `parseIPv6` is the library's IPv6 parser. -/
def ParseIP (parseIPv6 : String → IP) (s : String) : IP :=
  match s.data.find? (fun c => c = '.' ∨ c = ':' ∨ c = '%') with
  | none => []
  | some c =>
    if c = '.' then
      match parseIPv4Aux s.data none [] 0 0 with
      | some f => v4InV6Prefix ++ f
      | none => []
    else if c = ':' then parseIPv6 s
    else []

/-! ## The relay -/

/-- The membership table `clients`, a Go `map[string]string`. -/
abbrev Clients := List (String × String)

/-- Keys of the map, in the order `range` visits them. -/
def mapKeys (m : Clients) : List String := m.map Prod.fst

/-- The read `v, ok := m[k]`. -/
def mapGet : Clients → String → Option String
  | [], _ => none
  | (k', v) :: rest, k => if k' = k then some v else mapGet rest k

/-- The assignment `m[k] = v`. -/
def mapSet : Clients → String → String → Clients
  | [], k, v => [(k, v)]
  | (k', v') :: rest, k, v => if k' = k then (k, v) :: rest else (k', v') :: mapSet rest k v

/-- The statement `delete(m, k)`. -/
def mapDelete : Clients → String → Clients
  | [], _ => []
  | (k', v) :: rest, k => if k' = k then mapDelete rest k else (k', v) :: mapDelete rest k

/-- `addrPort` of `src/main.go`: the second piece of `addr` split on ":" read with `%d`
(0 when the scan fails); `none` is the index-out-of-range panic of `parts[1]`. -/
def addrPort (addr : String) : Option Int :=
  match (Split addr ':')[1]? with
  | none => none
  | some p => some ((scanInt p).getD 0)

/-- The destination `&net.UDPAddr{IP: net.ParseIP(strings.Split(addr, ":")[0]), Port: addrPort(addr)}`
the relay builds from a map key; `none` when an index is out of range. -/
def destOf (parseIPv6 : String → IP) (addr : String) : Option UDPAddr :=
  match (Split addr ':')[0]? with
  | none => none
  | some h =>
    match addrPort addr with
    | none => none
    | some port => some { IP := ParseIP parseIPv6 h, Port := port, Zone := "" }

/-- One call `conn.WriteToUDP([]byte(payload), dest)`, made while `range` is at the key
`addr`; `failed` is whether the transport returned an error (the relay discards it). -/
structure Send where
  addr : String
  payload : String
  dest : UDPAddr
  failed : Bool
  deriving DecidableEq, Repr

/-- What a `Send` delivers and for which entry: the key and the text. -/
def Send.call (s : Send) : String × String := (s.addr, s.payload)

/-- The loop `for addr := range clients { if addr != skip { conn.WriteToUDP(payload, dest(addr)) } }`
over the keys; with `skip = none` the loop has no guard (the LEAVE loop).  `i` counts the
writes made so far. -/
def fanOut (parseIPv6 : String → IP) (werr : Nat → Bool) (payload : String)
    (skip : Option String) : List String → Nat → Option (List Send)
  | [], _ => some []
  | addr :: rest, i =>
    if skip = some addr then fanOut parseIPv6 werr payload skip rest i
    else
      match destOf parseIPv6 addr with
      | none => none
      | some d =>
        match fanOut parseIPv6 werr payload skip rest (i + 1) with
        | none => none
        | some tl => some ({ addr := addr, payload := payload, dest := d, failed := werr i } :: tl)

/-- The body of the receive loop of `startServer` for one datagram `buffer[:n]` read from
`clientAddr`: the new table and the writes made, or `none` on a panic. -/
def handle (parseIPv6 : String → IP) (werr : Nat → Bool) (clients : Clients)
    (clientAddr : UDPAddr) (buffer : String) : Option (Clients × List Send) :=
  let message := TrimSpace buffer
  if HasPrefix message "JOIN:" then
    let user := TrimPrefix message "JOIN:"
    let clients := mapSet clients clientAddr.String user
    (fanOut parseIPv6 werr (user ++ " has joined the chat.") (some clientAddr.String)
      (mapKeys clients) 0).map (fun out => (clients, out))
  else if HasPrefix message "LEAVE:" then
    let user := TrimPrefix message "LEAVE:"
    let clients := mapDelete clients clientAddr.String
    (fanOut parseIPv6 werr (user ++ " has left the chat.") none (mapKeys clients) 0).map
      (fun out => (clients, out))
  else
    match mapGet clients clientAddr.String with
    | some username =>
      (fanOut parseIPv6 werr ("[" ++ username ++ "]: " ++ message) (some clientAddr.String)
        (mapKeys clients) 0).map (fun out => (clients, out))
    | none => some (clients, [])

/-- One iteration of the receive loop as seen from outside: who sent the datagram, its
bytes, and which of the writes it triggers the transport will report as failed. -/
structure Event where
  clientAddr : UDPAddr
  data : String
  werr : Nat → Bool

/-- The receive loop run on a finite sequence of datagrams from a given table: the final
table and the writes of every iteration. -/
def serve (parseIPv6 : String → IP) : Clients → List Event → Option (Clients × List (List Send))
  | clients, [] => some (clients, [])
  | clients, ev :: rest =>
    match handle parseIPv6 ev.werr clients ev.clientAddr ev.data with
    | none => none
    | some (clients', out) =>
      match serve parseIPv6 clients' rest with
      | none => none
      | some (final, outs) => some (final, out :: outs)

/-- The relay from start-up: `clients := make(map[string]string)`, then the loop. -/
def startServer (parseIPv6 : String → IP) (events : List Event) :
    Option (Clients × List (List Send)) :=
  serve parseIPv6 [] events

/-! ## Well-formed tables -/

/-- A key of host:port shape: it contains a colon, so splitting it yields two pieces. -/
def HasColon (k : String) : Prop := ':' ∈ k.data

instance (k : String) : Decidable (HasColon k) := by
  unfold HasColon; infer_instance

/-- A key as the transport formats it: the text of some `*net.UDPAddr`. -/
def IsEndpointKey (k : String) : Prop := ∃ a : UDPAddr, a.String = k

/-- The table is a map (keys pairwise distinct) whose keys all have host:port shape. -/
def WF (m : Clients) : Prop := (mapKeys m).Nodup ∧ ∀ k ∈ mapKeys m, HasColon k

instance (m : Clients) : Decidable (WF m) := by
  unfold WF; infer_instance

/-- Text that is neither a join nor a leave datagram. -/
def Ordinary (message : String) : Prop :=
  HasPrefix message "JOIN:" = false ∧ HasPrefix message "LEAVE:" = false

instance (message : String) : Decidable (Ordinary message) := by
  unfold Ordinary; infer_instance

/-- The datagram of `e` comes from the endpoint the relay files under `key` and is a join. -/
def Event.isJoinFrom (e : Event) (key : String) : Prop :=
  e.clientAddr.String = key ∧ HasPrefix (TrimSpace e.data) "JOIN:" = true

/-- The datagram of `e` comes from the endpoint the relay files under `key` and is a leave. -/
def Event.isLeaveFrom (e : Event) (key : String) : Prop :=
  e.clientAddr.String = key ∧ HasPrefix (TrimSpace e.data) "LEAVE:" = true

/-- What one write attempts, apart from its outcome: entry, text and destination. -/
def Send.attempt (s : Send) : String × String × UDPAddr := (s.addr, s.payload, s.dest)

/-- Go `IP.Equal`: equality of addresses, an IPv4 address and its 16-byte form being equal. -/
def IP.Equal (ip x : IP) : Bool :=
  if ip.length = x.length then ip == x
  else if ip.length = 4 ∧ x.length = 16 then x.take 12 == v4InV6Prefix && ip == x.drop 12
  else if ip.length = 16 ∧ x.length = 4 then ip.take 12 == v4InV6Prefix && ip.drop 12 == x
  else false

/-- Two values denote the same endpoint: equal addresses, ports and zones. -/
def UDPAddr.Same (a b : UDPAddr) : Prop :=
  IP.Equal a.IP b.IP = true ∧ a.Port = b.Port ∧ a.Zone = b.Zone

instance (a b : UDPAddr) : Decidable (UDPAddr.Same a b) := by
  unfold UDPAddr.Same; infer_instance

/-- An endpoint as `ReadFromUDP` reports a sender: an address of 4 or 16 bytes, a port of
16 bits, and a zone only on an IPv6 address. -/
def UDPAddr.Valid (a : UDPAddr) : Prop :=
  (a.IP.length = 4 ∨ a.IP.length = 16) ∧ (∀ b ∈ a.IP, b ≤ 255) ∧
  0 ≤ a.Port ∧ a.Port < 65536 ∧ (IP.To4 a.IP ≠ none → a.Zone = "")

instance (a : UDPAddr) : Decidable (UDPAddr.Valid a) := by
  unfold UDPAddr.Valid; infer_instance

/-- A decimal digit character. -/
def IsDigitChar (c : Char) : Prop := ∃ d, d < 10 ∧ c = Nat.digitChar d

/-! ## Auxiliary facts -/

theorem hasPrefix_append (p n : String) : HasPrefix (p ++ n) p = true := by
  simp [HasPrefix, String.data_append]

theorem trimPrefix_append (p n : String) : TrimPrefix (p ++ n) p = n := by
  simp [TrimPrefix, hasPrefix_append, String.data_append]

theorem leave_not_join (n : String) : HasPrefix ("LEAVE:" ++ n) "JOIN:" = false := by
  simp [HasPrefix, String.data_append, List.isPrefixOf]

theorem splitChars_ne_nil (sep : Char) (l : List Char) : splitChars sep l ≠ [] := by
  induction l with
  | nil => simp [splitChars]
  | cons c cs ih =>
    unfold splitChars
    split
    · simp
    · split <;> simp

theorem splitChars_length (sep : Char) (l : List Char) (h : sep ∈ l) :
    2 ≤ (splitChars sep l).length := by
  induction l with
  | nil => simp at h
  | cons c cs ih =>
    unfold splitChars
    by_cases hc : c = sep
    · have := splitChars_ne_nil sep cs
      have : 0 < (splitChars sep cs).length := List.length_pos.mpr this
      simp [hc]; omega
    · have hm : sep ∈ cs := by
        rcases List.mem_cons.mp h with h | h
        · exact absurd h.symm hc
        · exact h
      have := ih hm
      simp only [hc, if_false]
      split
      · rename_i heq; simp [heq] at this
      · rename_i p ps heq; simpa [heq] using this

theorem joinHostPort_colon (host port : String) : HasColon (JoinHostPort host port) := by
  unfold JoinHostPort HasColon
  split <;> simp [String.data_append]

theorem udpAddr_string_colon (a : UDPAddr) : HasColon a.String := by
  dsimp only [UDPAddr.String]
  split <;> exact joinHostPort_colon _ _

theorem hasColon_of_endpointKey {k : String} (h : IsEndpointKey k) : HasColon k := by
  obtain ⟨a, rfl⟩ := h
  exact udpAddr_string_colon a

theorem destOf_of_colon (p6 : String → IP) (addr : String) (h : HasColon addr) :
    ∃ d, destOf p6 addr = some d := by
  have hl : 2 ≤ (Split addr ':').length := by
    simpa [Split] using splitChars_length ':' addr.data h
  unfold destOf addrPort
  match hs : Split addr ':' with
  | [] => simp [hs] at hl
  | [_] => simp [hs] at hl
  | a :: b :: rest => simp

/-- On keys of host:port shape the broadcast loop completes, and it makes one write per
key that is not skipped, in order, each with the payload, the rebuilt destination and the
outcome of its position. -/
theorem fanOut_spec (p6 : String → IP) (werr : Nat → Bool) (payload : String)
    (skip : Option String) (ks : List String) (h : ∀ k ∈ ks, HasColon k) (i : Nat) :
    ∃ out, fanOut p6 werr payload skip ks i = some out ∧
      out.map Send.call =
        (ks.filter (fun k => !decide (skip = some k))).map (fun k => (k, payload)) ∧
      out.map Send.failed = (List.range' i out.length).map werr ∧
      ∀ s ∈ out, destOf p6 s.addr = some s.dest := by
  induction ks generalizing i with
  | nil => exact ⟨[], by simp [fanOut]⟩
  | cons k ks ih =>
    have hk : HasColon k := h k (List.mem_cons_self _ _)
    have hks : ∀ k' ∈ ks, HasColon k' := fun k' hk' => h k' (List.mem_cons_of_mem _ hk')
    by_cases hs : skip = some k
    · obtain ⟨out, h1, h2, h3, h4⟩ := ih hks i
      subst hs
      exact ⟨out, by simp [fanOut, h1], by simp [h2], h3, h4⟩
    · obtain ⟨out, h1, h2, h3, h4⟩ := ih hks (i + 1)
      obtain ⟨d, hd⟩ := destOf_of_colon p6 k hk
      refine ⟨⟨k, payload, d, werr i⟩ :: out, by simp [fanOut, hs, hd, h1], ?_, ?_, ?_⟩
      · simp [hs, h2, Send.call]
      · simp [h3, List.range'_succ]
      · intro s hs'
        rcases List.mem_cons.mp hs' with rfl | hs'
        · exact hd
        · exact h4 s hs'

theorem count_filter_map_pair (ks : List String) (hn : ks.Nodup) (p : String → Bool)
    (txt : String) (k : String) (t : String) :
    ((ks.filter p).map (fun k => (k, txt))).count (k, t) =
      if k ∈ ks ∧ p k = true ∧ t = txt then 1 else 0 := by
  induction ks with
  | nil => simp
  | cons a ks ih =>
    have hn' := (List.nodup_cons.mp hn)
    have ih := ih hn'.2
    by_cases hp : p a = true
    · rw [List.filter_cons_of_pos hp, List.map_cons, List.count_cons, ih]
      by_cases hak : a = k
      · subst hak
        by_cases ht : t = txt
        · subst ht; simp [hn'.1, hp]
        · simp [ht, Ne.symm ht]
      · have : ¬ ((a, txt) == (k, t)) = true := by simp [hak]
        simp [hak, Ne.symm hak, this]
    · rw [List.filter_cons_of_neg hp, ih]
      by_cases hak : a = k
      · subst hak; simp [hp, hn'.1]
      · simp [hak, Ne.symm hak]

theorem mapGet_isSome_iff (m : Clients) (k : String) :
    (∃ v, mapGet m k = some v) ↔ k ∈ mapKeys m := by
  induction m with
  | nil => simp [mapGet, mapKeys]
  | cons e m ih =>
    obtain ⟨k', v'⟩ := e
    by_cases hk : k' = k
    · simp [mapGet, mapKeys, hk]
    · have : ¬ k = k' := fun h => hk h.symm
      simpa [mapGet, mapKeys, hk, this] using ih

theorem mapGet_eq_none_iff (m : Clients) (k : String) :
    mapGet m k = none ↔ k ∉ mapKeys m := by
  rw [← mapGet_isSome_iff]
  cases mapGet m k <;> simp

/-- In a map with distinct keys, the read of a key yields the name of its entry. -/
theorem mapGet_of_mem (m : Clients) (k v : String) (hn : (mapKeys m).Nodup)
    (h : (k, v) ∈ m) : mapGet m k = some v := by
  induction m with
  | nil => cases h
  | cons e m ih =>
    obtain ⟨a, b⟩ := e
    have hn' : a ∉ mapKeys m ∧ (mapKeys m).Nodup := by simpa [mapKeys] using hn
    rcases List.mem_cons.mp h with he | hm
    · cases he
      simp [mapGet]
    · have hk : k ∈ mapKeys m := List.mem_map_of_mem Prod.fst hm
      have hne : ¬ a = k := fun e => hn'.1 (e ▸ hk)
      simp [mapGet, hne, ih hn'.2 hm]

theorem mapGet_mapSet (m : Clients) (k v k' : String) :
    mapGet (mapSet m k v) k' = if k' = k then some v else mapGet m k' := by
  induction m with
  | nil =>
    by_cases h : k' = k
    · simp [mapSet, mapGet, h]
    · have : ¬ k = k' := fun e => h e.symm
      simp [mapSet, mapGet, h, this]
  | cons e m ih =>
    obtain ⟨a, b⟩ := e
    by_cases ha : a = k
    · subst ha
      by_cases h : k' = a
      · simp [mapSet, mapGet, h]
      · have : ¬ a = k' := fun e => h e.symm
        simp [mapSet, mapGet, h, this]
    · by_cases h : a = k'
      · have : ¬ k' = k := by rw [← h]; exact ha
        simp [mapSet, mapGet, ha, h, this]
      · simp [mapSet, mapGet, ha, h, ih]

theorem mem_mapKeys_mapSet (m : Clients) (k v k' : String) :
    k' ∈ mapKeys (mapSet m k v) ↔ k' = k ∨ k' ∈ mapKeys m := by
  rw [← mapGet_isSome_iff, ← mapGet_isSome_iff, mapGet_mapSet]
  by_cases h : k' = k <;> simp [h]

theorem nodup_mapKeys_mapSet (m : Clients) (k v : String) (h : (mapKeys m).Nodup) :
    (mapKeys (mapSet m k v)).Nodup := by
  induction m with
  | nil => simp [mapSet, mapKeys]
  | cons e m ih =>
    obtain ⟨a, b⟩ := e
    have h' : a ∉ mapKeys m ∧ (mapKeys m).Nodup := by simpa [mapKeys] using h
    by_cases ha : a = k
    · subst ha
      simpa [mapSet, mapKeys] using h
    · have hnot : a ∉ mapKeys (mapSet m k v) := by
        rw [mem_mapKeys_mapSet]
        rintro (h1 | h1)
        · exact ha h1
        · exact h'.1 h1
      have := ih h'.2
      simp only [mapSet, ha, if_false]
      exact List.nodup_cons.mpr ⟨hnot, this⟩

theorem wf_mapSet (m : Clients) (k v : String) (h : WF m) (hk : HasColon k) :
    WF (mapSet m k v) := by
  refine ⟨nodup_mapKeys_mapSet m k v h.1, ?_⟩
  intro k' hk'
  rcases (mem_mapKeys_mapSet m k v k').mp hk' with rfl | h'
  · exact hk
  · exact h.2 k' h'

theorem mapKeys_mapDelete (m : Clients) (k : String) :
    mapKeys (mapDelete m k) = (mapKeys m).filter (fun k' => !decide (k' = k)) := by
  induction m with
  | nil => simp [mapDelete, mapKeys]
  | cons e m ih =>
    obtain ⟨a, b⟩ := e
    simp only [mapKeys] at ih
    by_cases ha : a = k
    · simp [mapDelete, mapKeys, List.filter_cons, ha, ih]
    · simp [mapDelete, mapKeys, List.filter_cons, ha, ih]

theorem mem_mapKeys_mapDelete (m : Clients) (k k' : String) :
    k' ∈ mapKeys (mapDelete m k) ↔ k' ≠ k ∧ k' ∈ mapKeys m := by
  rw [mapKeys_mapDelete]
  simp [List.mem_filter, and_comm]

theorem mapGet_mapDelete (m : Clients) (k k' : String) :
    mapGet (mapDelete m k) k' = if k' = k then none else mapGet m k' := by
  induction m with
  | nil => simp [mapDelete, mapGet]
  | cons e m ih =>
    obtain ⟨a, b⟩ := e
    by_cases ha : a = k
    · subst ha
      by_cases h : k' = a
      · subst h
        simpa [mapDelete, mapGet] using ih
      · have : ¬ a = k' := fun e => h e.symm
        simp [mapDelete, mapGet, ih, h, this]
    · by_cases h : a = k'
      · have : ¬ k' = k := by rw [← h]; exact ha
        simp [mapDelete, mapGet, ha, h, this]
      · simp [mapDelete, mapGet, ha, h, ih]

theorem wf_mapDelete (m : Clients) (k : String) (h : WF m) : WF (mapDelete m k) := by
  refine ⟨?_, ?_⟩
  · rw [mapKeys_mapDelete]; exact h.1.filter _
  · intro k' hk'
    exact h.2 k' ((mem_mapKeys_mapDelete m k k').mp hk').2

theorem mapDelete_of_not_mem (m : Clients) (k : String) (h : k ∉ mapKeys m) :
    mapDelete m k = m := by
  induction m with
  | nil => simp [mapDelete]
  | cons e m ih =>
    obtain ⟨a, b⟩ := e
    have h' : ¬ k = a ∧ k ∉ mapKeys m := by simpa [mapKeys] using h
    have ha : ¬ a = k := fun e => h'.1 e.symm
    simp [mapDelete, ha, ih h'.2]

/-- On a well-formed list of keys the broadcast loop completes and makes exactly one write,
carrying the payload, for each key that is not skipped, and no other write. -/
theorem fanOut_count (p6 : String → IP) (werr : Nat → Bool) (payload : String)
    (skip : Option String) (ks : List String) (hn : ks.Nodup) (h : ∀ k ∈ ks, HasColon k) :
    ∃ out, fanOut p6 werr payload skip ks 0 = some out ∧
      (∀ s ∈ out, s.addr ∈ ks ∧ skip ≠ some s.addr ∧ s.payload = payload) ∧
      ∀ k t, (out.map Send.call).count (k, t) =
        if k ∈ ks ∧ skip ≠ some k ∧ t = payload then 1 else 0 := by
  obtain ⟨out, h1, h2, -, -⟩ := fanOut_spec p6 werr payload skip ks h 0
  refine ⟨out, h1, ?_, ?_⟩
  · intro s hs
    have hm : s.call ∈ out.map Send.call := List.mem_map_of_mem _ hs
    rw [h2] at hm
    obtain ⟨k, hk, hke⟩ := List.mem_map.mp hm
    have hk' := List.mem_filter.mp hk
    have h1 : k = s.addr := congrArg Prod.fst hke
    have h2 : payload = s.payload := congrArg Prod.snd hke
    subst h1
    exact ⟨hk'.1, by simpa using hk'.2, h2.symm⟩
  · intro k t
    rw [h2, count_filter_map_pair ks hn]
    simp

theorem handle_join (p6 : String → IP) (werr : Nat → Bool) (T : Clients) (E : UDPAddr)
    (buffer n : String) (hmsg : TrimSpace buffer = "JOIN:" ++ n) :
    handle p6 werr T E buffer =
      (fanOut p6 werr (n ++ " has joined the chat.") (some E.String)
        (mapKeys (mapSet T E.String n)) 0).map (fun out => (mapSet T E.String n, out)) := by
  simp [handle, hmsg, hasPrefix_append, trimPrefix_append]

theorem handle_leave (p6 : String → IP) (werr : Nat → Bool) (T : Clients) (E : UDPAddr)
    (buffer n : String) (hmsg : TrimSpace buffer = "LEAVE:" ++ n) :
    handle p6 werr T E buffer =
      (fanOut p6 werr (n ++ " has left the chat.") none
        (mapKeys (mapDelete T E.String)) 0).map (fun out => (mapDelete T E.String, out)) := by
  simp [handle, hmsg, hasPrefix_append, trimPrefix_append, leave_not_join]

theorem handle_ordinary (p6 : String → IP) (werr : Nat → Bool) (T : Clients) (E : UDPAddr)
    (buffer : String) (hord : Ordinary (TrimSpace buffer)) :
    handle p6 werr T E buffer =
      match mapGet T E.String with
      | some username =>
        (fanOut p6 werr ("[" ++ username ++ "]: " ++ TrimSpace buffer) (some E.String)
          (mapKeys T) 0).map (fun out => (T, out))
      | none => some (T, []) := by
  simp [handle, hord.1, hord.2]

/-! ## Keys and the destinations rebuilt from them -/

theorem digitChar_facts : ∀ d, d < 10 →
    ('0' ≤ Nat.digitChar d ∧ Nat.digitChar d ≤ '9') ∧
    (Nat.digitChar d).toNat - 48 = d ∧ Nat.digitChar d ≠ '.' ∧ Nat.digitChar d ≠ ':' ∧
    Nat.digitChar d ≠ '%' ∧ Nat.digitChar d ≠ '\r' ∧ Nat.digitChar d ≠ '\n' ∧
    Nat.digitChar d ≠ '+' ∧ Nat.digitChar d ≠ '-' ∧ isSpace (Nat.digitChar d) = false := by
  decide

theorem digitsAux_digits (fuel n : Nat) : ∀ c ∈ digitsAux 10 fuel n, IsDigitChar c := by
  induction fuel generalizing n with
  | zero => simp [digitsAux]
  | succ fuel ih =>
    intro c hc
    unfold digitsAux at hc
    split at hc
    · rename_i h
      rw [List.mem_singleton.mp hc]
      exact ⟨n, h, rfl⟩
    · rcases List.mem_append.mp hc with h | h
      · exact ih _ c h
      · rw [List.mem_singleton.mp h]
        exact ⟨n % 10, Nat.mod_lt _ (by decide), rfl⟩

theorem digitsAux_ne_nil (fuel n : Nat) : digitsAux 10 (fuel + 1) n ≠ [] := by
  unfold digitsAux
  split <;> simp

theorem parseDigits_append (l : List Char) (c : Char) (acc : Nat) :
    parseDigits (l ++ [c]) acc =
      (parseDigits l acc).bind (fun v =>
        if '0' ≤ c ∧ c ≤ '9' then some (v * 10 + (c.toNat - 48)) else none) := by
  induction l generalizing acc with
  | nil => simp [parseDigits]
  | cons a l ih =>
    simp only [List.cons_append, parseDigits]
    split
    · exact ih _
    · rfl

theorem parseDigits_digitsAux (fuel n : Nat) (h : n < fuel) :
    parseDigits (digitsAux 10 fuel n) 0 = some n := by
  induction fuel generalizing n with
  | zero => omega
  | succ fuel ih =>
    unfold digitsAux
    split
    · rename_i hn
      have := digitChar_facts n hn
      simp [parseDigits, this.1, this.2.1]
    · rename_i hn
      have hd := digitChar_facts (n % 10) (Nat.mod_lt _ (by decide))
      rw [parseDigits_append, ih (n / 10) (by omega)]
      simp only [Option.some_bind, hd.1, and_self, if_true, hd.2.1]
      congr 1
      omega

theorem uitoa_digits (n : Nat) : ∀ c ∈ (uitoa n).data, IsDigitChar c :=
  digitsAux_digits (n + 1) n

theorem uitoa_ne_nil (n : Nat) : (uitoa n).data ≠ [] :=
  digitsAux_ne_nil n n

theorem isDigitChar_facts {c : Char} (h : IsDigitChar c) :
    ('0' ≤ c ∧ c ≤ '9') ∧ c ≠ '.' ∧ c ≠ ':' ∧ c ≠ '%' ∧ c ≠ '\r' ∧ c ≠ '\n' ∧
    c ≠ '+' ∧ c ≠ '-' ∧ isSpace c = false := by
  obtain ⟨d, hd, rfl⟩ := h
  have := digitChar_facts d hd
  exact ⟨this.1, this.2.2.1, this.2.2.2.1, this.2.2.2.2.1, this.2.2.2.2.2.1,
    this.2.2.2.2.2.2.1, this.2.2.2.2.2.2.2.1, this.2.2.2.2.2.2.2.2.1, this.2.2.2.2.2.2.2.2.2⟩

/-- `fmt.Sscanf` with `%d` reads back what `itoa` writes, for every value a port can take. -/
theorem scanInt_itoa (p : Int) (h0 : 0 ≤ p) (h1 : p < 65536) : scanInt (itoa p) = some p := by
  obtain ⟨n, rfl⟩ := Int.eq_ofNat_of_zero_le h0
  have hn : n < 65536 := by exact_mod_cast h1
  have hit : itoa (n : Int) = uitoa n := by
    simp [itoa]
  rw [hit]
  have hne := uitoa_ne_nil n
  have hdig := uitoa_digits n
  unfold scanInt
  match hl : (uitoa n).data with
  | [] => exact absurd hl hne
  | c :: cs =>
    have hc := isDigitChar_facts (hdig c (by rw [hl]; exact List.mem_cons_self _ _))
    have hskip : skipSpace (c :: cs) = some (c :: cs) := by
      simp [skipSpace, hc.2.2.2.2.1, hc.2.2.2.2.2.1, hc.2.2.2.2.2.2.2.2]
    have htw : (c :: cs).takeWhile (fun d => decide ('0' ≤ d ∧ d ≤ '9')) = c :: cs := by
      rw [List.takeWhile_eq_self_iff]
      intro d hd
      have := isDigitChar_facts (hdig d (by rw [hl]; exact hd))
      simp [this.1]
    have hp : parseDigits (c :: cs) 0 = some n := by
      rw [← hl]
      exact parseDigits_digitsAux (n + 1) n (Nat.lt_succ_self n)
    simp only [hskip, hc.2.2.2.2.2.2.1, hc.2.2.2.2.2.2.2.1, or_self, if_false]
    simp only [htw, hp]
    have : n < 9223372036854775808 := by omega
    simp [this]

theorem splitChars_of_not_mem (sep : Char) (l : List Char) (h : sep ∉ l) :
    splitChars sep l = [l] := by
  induction l with
  | nil => rfl
  | cons c cs ih =>
    have hc : ¬ c = sep := fun e => h (by rw [e]; exact List.mem_cons_self _ _)
    have hcs : sep ∉ cs := fun e => h (List.mem_cons_of_mem _ e)
    simp [splitChars, hc, ih hcs]

theorem splitChars_append_sep (sep : Char) (l1 l2 : List Char) (h : sep ∉ l1) :
    splitChars sep (l1 ++ sep :: l2) = l1 :: splitChars sep l2 := by
  induction l1 with
  | nil => simp [splitChars]
  | cons c cs ih =>
    have hc : ¬ c = sep := fun e => h (by rw [e]; exact List.mem_cons_self _ _)
    have hcs : sep ∉ cs := fun e => h (List.mem_cons_of_mem _ e)
    simp [splitChars, hc, ih hcs]

/-- No piece of a split contains the separator. -/
theorem splitChars_no_sep (sep : Char) (l : List Char) :
    ∀ p ∈ splitChars sep l, sep ∉ p := by
  induction l with
  | nil => simp [splitChars]
  | cons c cs ih =>
    intro p hp
    unfold splitChars at hp
    by_cases hc : c = sep
    · simp only [hc, if_true] at hp
      rcases List.mem_cons.mp hp with rfl | hp
      · simp
      · exact ih p hp
    · simp only [hc, if_false] at hp
      match hs : splitChars sep cs with
      | [] => exact absurd hs (splitChars_ne_nil sep cs)
      | q :: qs =>
        rw [hs] at hp ih
        rcases List.mem_cons.mp hp with rfl | hp
        · intro hm
          rcases List.mem_cons.mp hm with e | hm
          · exact hc e.symm
          · exact ih q (List.mem_cons_self _ _) hm
        · exact ih p (List.mem_cons_of_mem _ hp)

/-- The IPv4 scan over the decimal text of a byte: the field value becomes the byte, and
the scan goes on after the text with a digit as previous character. -/
theorem parseIPv4Aux_digits (fuel n : Nat) (hf : n < fuel) (hn : n ≤ 255) (rest : List Char)
    (prev : Option Char) (fields : List Nat) :
    ∃ c L, IsDigitChar c ∧
      parseIPv4Aux (digitsAux 10 fuel n ++ rest) prev fields 0 0 =
        parseIPv4Aux rest (some c) fields n L := by
  induction fuel generalizing n rest with
  | zero => omega
  | succ fuel ih =>
    unfold digitsAux
    split
    · rename_i h10
      have hd := digitChar_facts n h10
      refine ⟨Nat.digitChar n, 1, ⟨n, h10, rfl⟩, ?_⟩
      simp only [List.singleton_append, parseIPv4Aux, hd.1, and_self, if_true, hd.2.1]
      have : ¬ 255 < n := by omega
      simp [this]
    · rename_i h10
      have hd := digitChar_facts (n % 10) (Nat.mod_lt _ (by decide))
      obtain ⟨c, L, -, hc⟩ := ih (n / 10) (by omega) (by omega)
        (Nat.digitChar (n % 10) :: rest)
      refine ⟨Nat.digitChar (n % 10), L + 1, ⟨n % 10, Nat.mod_lt _ (by decide), rfl⟩, ?_⟩
      rw [List.append_assoc, List.singleton_append, hc]
      have h1 : ¬ (L = 1 ∧ n / 10 = 0) := by omega
      have h2 : n / 10 * 10 + n % 10 = n := by omega
      have h3 : ¬ 255 < n := by omega
      rw [parseIPv4Aux]
      simp only [hd.1, and_self, if_true, hd.2.1, h1, if_false, h2, h3]

theorem parseIPv4Aux_uitoa (n : Nat) (hn : n ≤ 255) (rest : List Char)
    (prev : Option Char) (fields : List Nat) :
    ∃ c L, IsDigitChar c ∧
      parseIPv4Aux ((uitoa n).data ++ rest) prev fields 0 0 =
        parseIPv4Aux rest (some c) fields n L :=
  parseIPv4Aux_digits (n + 1) n (Nat.lt_succ_self n) hn rest prev fields

theorem parseIPv4Aux_dot (cs : List Char) (p : Char) (fields : List Nat)
    (val L : Nat) (hp : p ≠ '.') (hcs : cs ≠ []) (hf : fields.length ≠ 3) :
    parseIPv4Aux ('.' :: cs) (some p) fields val L =
      parseIPv4Aux cs (some '.') (fields ++ [val]) 0 0 := by
  rw [parseIPv4Aux]
  have h1 : ¬ ('0' ≤ '.' ∧ '.' ≤ '9') := by decide
  simp [h1, hp, hcs, hf]

/-- The dotted-decimal text of four bytes. -/
theorem dotted_eq (a b c d : Nat) :
    List.intercalate ['.'] ([a, b, c, d].map (fun x => (uitoa x).data)) =
      (uitoa a).data ++ '.' :: ((uitoa b).data ++ '.' :: ((uitoa c).data ++
        '.' :: ((uitoa d).data ++ []))) := by
  simp [List.intercalate]

/-- The IPv4 parser reads back dotted-decimal text. -/
theorem parseIPv4Aux_dotted (a b c d : Nat) (ha : a ≤ 255) (hb : b ≤ 255) (hc : c ≤ 255)
    (hd : d ≤ 255) :
    parseIPv4Aux (List.intercalate ['.'] ([a, b, c, d].map (fun x => (uitoa x).data)))
      none [] 0 0 = some [a, b, c, d] := by
  rw [dotted_eq]
  have na : ∀ (x : Nat) (l : List Char), (uitoa x).data ++ l ≠ [] := by
    intro x l h
    exact uitoa_ne_nil x (List.append_eq_nil.mp h).1
  obtain ⟨c1, L1, d1, h1⟩ := parseIPv4Aux_uitoa a ha
    ('.' :: ((uitoa b).data ++ '.' :: ((uitoa c).data ++ '.' :: ((uitoa d).data ++ []))))
    none []
  obtain ⟨c2, L2, d2, h2⟩ := parseIPv4Aux_uitoa b hb
    ('.' :: ((uitoa c).data ++ '.' :: ((uitoa d).data ++ []))) (some '.') [a]
  obtain ⟨c3, L3, d3, h3⟩ := parseIPv4Aux_uitoa c hc
    ('.' :: ((uitoa d).data ++ [])) (some '.') [a, b]
  obtain ⟨c4, L4, d4, h4⟩ := parseIPv4Aux_uitoa d hd [] (some '.') [a, b, c]
  rw [h1, parseIPv4Aux_dot _ c1 [] a L1 (isDigitChar_facts d1).2.1 (na _ _) (by simp)]
  rw [List.nil_append, h2, parseIPv4Aux_dot _ c2 [a] b L2 (isDigitChar_facts d2).2.1 (na _ _)
    (by simp)]
  rw [List.singleton_append, h3, parseIPv4Aux_dot _ c3 [a, b] c L3 (isDigitChar_facts d3).2.1
    (na _ _) (by simp)]
  rw [show [a, b] ++ [c] = [a, b, c] from rfl, h4]
  simp [parseIPv4Aux]

theorem find_special_dotted (l rest : List Char) (h : ∀ c ∈ l, IsDigitChar c) :
    (l ++ '.' :: rest).find? (fun c => decide (c = '.' ∨ c = ':' ∨ c = '%')) = some '.' := by
  induction l with
  | nil => simp
  | cons c cs ih =>
    have hc := isDigitChar_facts (h c (List.mem_cons_self _ _))
    have := ih (fun c' hc' => h c' (List.mem_cons_of_mem _ hc'))
    have hf : decide (c = '.' ∨ c = ':' ∨ c = '%') = false := by
      simp [hc.2.1, hc.2.2.1, hc.2.2.2.1]
    rw [List.cons_append, List.find?_cons, hf]
    exact this

theorem to4_length (ip : IP) (p4 : List Nat)
    (h : IP.To4 ip = some p4) : p4.length = 4 ∧ ∀ b ∈ p4, b ∈ ip := by
  unfold IP.To4 at h
  split at h
  · rename_i h4
    cases h
    exact ⟨h4, fun b hb => hb⟩
  · split at h
    · rename_i h16
      cases h
      exact ⟨by simp [h16.1], fun b hb => List.mem_of_mem_drop hb⟩
    · cases h

theorem ipString_of_to4 (ip : IP) (p4 : List Nat) (h : IP.To4 ip = some p4) :
    IP.String ip = ⟨List.intercalate ['.'] (p4.map (fun b => (uitoa b).data))⟩ ∧
    ip.length ≠ 0 := by
  have hl : ip.length = 4 ∨ ip.length = 16 := by
    unfold IP.To4 at h
    split at h
    · left; assumption
    · split at h
      · rename_i h16; right; exact h16.1
      · cases h
  have h0 : ip.length ≠ 0 := by omega
  have h1 : ¬ (ip.length ≠ 4 ∧ ip.length ≠ 16) := by omega
  refine ⟨?_, h0⟩
  unfold IP.String
  simp only [h0, if_false, h1, h]

/-- The key of an IPv4 endpoint without zone is rebuilt as the endpoint: the 16-byte
form of its address and its port. -/
theorem destOf_ipv4 (p6 : String → IP) (a : UDPAddr) (hv : a.Valid) (p4 : List Nat)
    (h4 : IP.To4 a.IP = some p4) :
    destOf p6 a.String = some ⟨v4InV6Prefix ++ p4, a.Port, ""⟩ := by
  obtain ⟨hlen, hbytes, hp0, hp1, hzone⟩ := hv
  have hz : a.Zone = "" := hzone (by rw [h4]; simp)
  obtain ⟨hl4, hmem⟩ := to4_length a.IP p4 h4
  obtain ⟨hstr, h0⟩ := ipString_of_to4 a.IP p4 h4
  match p4, hl4, hmem, hstr, h4 with
  | [x, y, z, w], _, hmem, hstr, h4 =>
    have hx : x ≤ 255 := hbytes x (hmem x (by simp))
    have hy : y ≤ 255 := hbytes y (hmem y (by simp))
    have hz' : z ≤ 255 := hbytes z (hmem z (by simp))
    have hw : w ≤ 255 := hbytes w (hmem w (by simp))
    have hdig : ∀ c ∈ List.intercalate ['.'] ([x, y, z, w].map (fun b => (uitoa b).data)),
        IsDigitChar c ∨ c = '.' := by
      intro c hc
      rw [dotted_eq] at hc
      simp only [List.mem_append, List.mem_cons, List.not_mem_nil, or_false] at hc
      rcases hc with h | h | h | h | h | h | h
      · exact Or.inl (uitoa_digits _ c h)
      · exact Or.inr h
      · exact Or.inl (uitoa_digits _ c h)
      · exact Or.inr h
      · exact Or.inl (uitoa_digits _ c h)
      · exact Or.inr h
      · exact Or.inl (uitoa_digits _ c h)
    have hnocolon : ':' ∉ List.intercalate ['.'] ([x, y, z, w].map (fun b => (uitoa b).data)) := by
      intro hc
      rcases hdig _ hc with h | h
      · exact (isDigitChar_facts h).2.2.1 rfl
      · cases h
    have hport : itoa a.Port = uitoa a.Port.toNat := by
      have : ¬ a.Port < 0 := by omega
      simp [itoa, this]
    have hportnc : ':' ∉ (itoa a.Port).data := by
      rw [hport]
      intro hc
      exact (isDigitChar_facts (uitoa_digits _ _ hc)).2.2.1 rfl
    have hkey : a.String.data =
        List.intercalate ['.'] ([x, y, z, w].map (fun b => (uitoa b).data)) ++
          ':' :: (itoa a.Port).data := by
      simp only [UDPAddr.String, h0, if_false, hz, ne_eq, not_true_eq_false, JoinHostPort, hstr,
        hnocolon, String.data_append]
      simp
    have hsplit : Split a.String ':' =
        [⟨List.intercalate ['.'] ([x, y, z, w].map (fun b => (uitoa b).data))⟩, itoa a.Port] := by
      unfold Split
      rw [hkey, splitChars_append_sep _ _ _ hnocolon, splitChars_of_not_mem _ _ hportnc]
      rfl
    have hfind : (List.intercalate ['.'] ([x, y, z, w].map (fun b => (uitoa b).data))).find?
        (fun c => decide (c = '.' ∨ c = ':' ∨ c = '%')) = some '.' := by
      rw [dotted_eq]
      exact find_special_dotted _ _ (uitoa_digits x)
    have hparse : ParseIP p6
        ⟨List.intercalate ['.'] ([x, y, z, w].map (fun b => (uitoa b).data))⟩ =
          v4InV6Prefix ++ [x, y, z, w] := by
      unfold ParseIP
      simp only [hfind, if_true, parseIPv4Aux_dotted x y z w hx hy hz' hw]
    have hscan : scanInt (itoa a.Port) = some a.Port := scanInt_itoa a.Port hp0 hp1
    unfold destOf addrPort
    simp only [hsplit, List.getElem?_cons_zero, List.getElem?_cons_succ, hparse, hscan,
      Option.getD_some]

theorem ipEqual_of_to4 (ip : IP) (p4 : List Nat) (h4 : IP.To4 ip = some p4) : IP.Equal (v4InV6Prefix ++ p4) ip = true := by
  unfold IP.To4 at h4
  split at h4
  · rename_i hl
    cases h4
    simp [IP.Equal, v4InV6Prefix, hl]
  · split at h4
    · rename_i hl
      cases h4
      obtain ⟨h16, h10, h12⟩ := hl
      have e1 : ip = ip.take 10 ++ ip.drop 10 := (List.take_append_drop 10 ip).symm
      have e2 : ip.drop 10 = (ip.drop 10).take 2 ++ (ip.drop 10).drop 2 :=
        (List.take_append_drop 2 _).symm
      have e3 : (ip.drop 10).drop 2 = ip.drop 12 := by simp
      have : ip = v4InV6Prefix ++ ip.drop 12 := by
        rw [← e3]
        conv_lhs => rw [e1, e2, h10, h12]
        rfl
      rw [← this]
      simp [IP.Equal]
    · cases h4

/-- An IPv4 endpoint is rebuilt from its key as the same endpoint. -/
theorem destOf_ipv4_same (p6 : String → IP) (a : UDPAddr) (hv : a.Valid)
    (h4 : IP.To4 a.IP ≠ none) : ∃ d, destOf p6 a.String = some d ∧ d.Same a := by
  cases h : IP.To4 a.IP with
  | none => exact absurd h h4
  | some p4 =>
    refine ⟨_, destOf_ipv4 p6 a hv p4 h, ipEqual_of_to4 a.IP p4 h, rfl, ?_⟩
    exact (hv.2.2.2.2 h4).symm

theorem string6_colon (ip : List Nat) : ':' ∈ (string6 ip).data := by
  unfold string6
  simp only []
  generalize groups ip = g
  generalize longestZeros g = z
  by_cases h0 : 0 = z.1
  · simp [string6Aux, h0.symm]
  · by_cases h1 : 1 = z.1
    · simp [string6Aux, h0, h1.symm]
    · simp [string6Aux, h0, h1]

/-- A key that opens with a bracket is rebuilt with a nil IP: its first piece starts with
the bracket, which no IP address text does. -/
theorem destOf_bracket (p6 : String → IP) (key : String) (rest : List Char)
    (hk : key.data = '[' :: rest) (hc : ':' ∈ rest) :
    ∃ port, destOf p6 key = some ⟨[], port, ""⟩ := by
  have hl := splitChars_length ':' rest hc
  have hno := splitChars_no_sep ':' rest
  match hs : splitChars ':' rest with
  | [] => simp [hs] at hl
  | [_] => simp [hs] at hl
  | p :: q :: ps =>
    have hp : ':' ∉ p := hno p (by rw [hs]; exact List.mem_cons_self _ _)
    have hsplit : Split key ':' = ⟨'[' :: p⟩ :: ⟨q⟩ :: ps.map String.mk := by
      unfold Split
      rw [hk]
      simp [splitChars, hs]
    have hparse : ParseIP p6 ⟨'[' :: p⟩ = [] := by
      unfold ParseIP
      cases hf : ('[' :: p).find? (fun c => decide (c = '.' ∨ c = ':' ∨ c = '%')) with
      | none => rfl
      | some c =>
        have hmem := List.mem_of_find?_eq_some hf
        simp only []
        by_cases h1 : c = '.'
        · simp [h1, parseIPv4Aux]
        · by_cases h2 : c = ':'
          · subst h2
            rcases List.mem_cons.mp hmem with h | h
            · cases h
            · exact absurd h hp
          · simp [h1, h2]
    refine ⟨(scanInt ⟨q⟩).getD 0, ?_⟩
    unfold destOf addrPort
    simp only [hsplit, List.getElem?_cons_zero, List.getElem?_cons_succ, hparse]

/-- The key of an endpoint with a 16-byte address that is not an IPv4 one, whatever its
port and zone, is rebuilt with a nil IP. -/
theorem destOf_ipv6 (p6 : String → IP) (a : UDPAddr) (h16 : a.IP.length = 16)
    (h4 : IP.To4 a.IP = none) : ∃ port, destOf p6 a.String = some ⟨[], port, ""⟩ := by
  have h0 : ¬ a.IP.length = 0 := by omega
  have h1 : ¬ (a.IP.length ≠ 4 ∧ a.IP.length ≠ 16) := by omega
  have hstr : IP.String a.IP = string6 a.IP := by
    unfold IP.String
    simp only [h0, if_false, h1, h4]
  have hcol := string6_colon a.IP
  have key : ∀ host port : String, ':' ∈ host.data →
      ∃ rest, (JoinHostPort host port).data = '[' :: rest ∧ ':' ∈ rest := by
    intro host port hh
    refine ⟨host.data ++ ']' :: ':' :: port.data, ?_, ?_⟩
    · simp [JoinHostPort, hh, String.data_append]
    · simp
  by_cases hz : a.Zone = ""
  · obtain ⟨rest, hr, hc⟩ := key (string6 a.IP) (itoa a.Port) hcol
    have : a.String = JoinHostPort (string6 a.IP) (itoa a.Port) := by
      simp [UDPAddr.String, h0, hz, hstr]
    exact destOf_bracket p6 a.String rest (by rw [this]; exact hr) hc
  · obtain ⟨rest, hr, hc⟩ := key (string6 a.IP ++ "%" ++ a.Zone) (itoa a.Port)
      (by simp [String.data_append, hcol])
    have : a.String = JoinHostPort (string6 a.IP ++ "%" ++ a.Zone) (itoa a.Port) := by
      simp [UDPAddr.String, h0, hz, hstr]
    exact destOf_bracket p6 a.String rest (by rw [this]; exact hr) hc

/-! ## The handler and the receive loop -/

/-- The default branch on a well-formed table: the table stays, an unknown sender causes
no write, a sender stored as `N` causes one write "[N]: text" per other key. -/
theorem handle_ordinary_count (p6 : String → IP) (werr : Nat → Bool)
    (T : Clients) (E : UDPAddr) (buffer : String)
    (hT : WF T) (hord : Ordinary (TrimSpace buffer)) :
    ∃ out, handle p6 werr T E buffer = some (T, out) ∧
      (E.String ∉ mapKeys T → out = []) ∧
      (∀ N, mapGet T E.String = some N →
        ∀ k t, (out.map Send.call).count (k, t) =
          if k ∈ mapKeys T ∧ k ≠ E.String ∧ t = "[" ++ N ++ "]: " ++ TrimSpace buffer
          then 1 else 0) := by
  rw [handle_ordinary p6 werr T E buffer hord]
  cases hg : mapGet T E.String with
  | none =>
    refine ⟨[], rfl, fun _ => rfl, ?_⟩
    intro N hN
    cases hN
  | some N =>
    obtain ⟨out, h1, -, h3⟩ :=
      fanOut_count p6 werr ("[" ++ N ++ "]: " ++ TrimSpace buffer) (some E.String) _ hT.1 hT.2
    refine ⟨out, by simp [h1], ?_, ?_⟩
    · intro hnot
      have := (mapGet_eq_none_iff T E.String).mpr hnot
      rw [hg] at this
      cases this
    · intro N' hN' k t
      cases hN'
      rw [h3]
      have : (some E.String ≠ some k) ↔ k ≠ E.String := by
        simp only [ne_eq, Option.some.injEq]
        exact ⟨fun h e => h e.symm, fun h e => h e.symm⟩
      simp only [this]

/-- Every message is a join, a leave or ordinary text. -/
theorem message_cases (message : String) :
    (∃ n, message = "JOIN:" ++ n) ∨ (∃ n, message = "LEAVE:" ++ n) ∨ Ordinary message := by
  have key : ∀ p : String, HasPrefix message p = true →
      message = p ++ ⟨message.data.drop p.data.length⟩ := by
    intro p hp
    have hp' : p.data <+: message.data := by
      simpa [HasPrefix] using hp
    obtain ⟨t, ht⟩ := hp'
    apply String.ext
    rw [String.data_append, ← ht]
    simp
  by_cases h1 : HasPrefix message "JOIN:" = true
  · exact Or.inl ⟨_, key _ h1⟩
  · by_cases h2 : HasPrefix message "LEAVE:" = true
    · exact Or.inr (Or.inl ⟨_, key _ h2⟩)
    · exact Or.inr (Or.inr ⟨by simpa using h1, by simpa using h2⟩)

/-- The handler never panics on a well-formed table, the new table is well formed, and no
write is made for the sender's own key. -/
theorem handle_total (p6 : String → IP) (werr : Nat → Bool) (T : Clients) (E : UDPAddr)
    (buffer : String) (hT : WF T) :
    ∃ T' out, handle p6 werr T E buffer = some (T', out) ∧ WF T' ∧
      ∀ s ∈ out, s.addr ≠ E.String ∧ s.addr ∈ mapKeys T' := by
  rcases message_cases (TrimSpace buffer) with ⟨n, hn⟩ | ⟨n, hn⟩ | hord
  · have hwf := wf_mapSet T E.String n hT (udpAddr_string_colon E)
    obtain ⟨out, h1, h2, -⟩ :=
      fanOut_count p6 werr (n ++ " has joined the chat.") (some E.String) _ hwf.1 hwf.2
    refine ⟨_, out, ?_, hwf, ?_⟩
    · rw [handle_join p6 werr T E buffer n hn, h1]; rfl
    · intro s hs
      have := h2 s hs
      exact ⟨fun e => this.2.1 (by rw [e]), this.1⟩
  · have hwf := wf_mapDelete T E.String hT
    obtain ⟨out, h1, h2, -⟩ :=
      fanOut_count p6 werr (n ++ " has left the chat.") none _ hwf.1 hwf.2
    refine ⟨_, out, ?_, hwf, ?_⟩
    · rw [handle_leave p6 werr T E buffer n hn, h1]; rfl
    · intro s hs
      have := (h2 s hs).1
      exact ⟨((mem_mapKeys_mapDelete T E.String s.addr).mp this).1, this⟩
  · rw [handle_ordinary p6 werr T E buffer hord]
    cases hg : mapGet T E.String with
    | none => exact ⟨T, [], rfl, hT, by simp⟩
    | some N =>
      obtain ⟨out, h1, h2, -⟩ :=
        fanOut_count p6 werr ("[" ++ N ++ "]: " ++ TrimSpace buffer) (some E.String) _ hT.1 hT.2
      refine ⟨T, out, by simp [h1], hT, ?_⟩
      intro s hs
      have := h2 s hs
      exact ⟨fun e => this.2.1 (by rw [e]), this.1⟩

theorem join_not_leave (n : String) : HasPrefix ("JOIN:" ++ n) "LEAVE:" = false := by
  simp [HasPrefix, String.data_append, List.isPrefixOf]

/-- How one handled datagram changes the membership of a key. -/
theorem handle_mem_keys (p6 : String → IP) (werr : Nat → Bool) (T T' : Clients) (E : UDPAddr)
    (buffer : String) (out : List Send) (h : handle p6 werr T E buffer = some (T', out))
    (key : String) :
    key ∈ mapKeys T' ↔
      (E.String = key ∧ HasPrefix (TrimSpace buffer) "JOIN:" = true) ∨
      (key ∈ mapKeys T ∧ ¬ (E.String = key ∧ HasPrefix (TrimSpace buffer) "LEAVE:" = true)) := by
  rcases message_cases (TrimSpace buffer) with ⟨n, hn⟩ | ⟨n, hn⟩ | hord
  · rw [handle_join p6 werr T E buffer n hn] at h
    obtain ⟨o, -, ho⟩ := Option.map_eq_some'.mp h
    have hT' : T' = mapSet T E.String n := (congrArg Prod.fst ho).symm
    subst hT'
    rw [mem_mapKeys_mapSet, hn, hasPrefix_append, join_not_leave]
    simp [eq_comm]
  · rw [handle_leave p6 werr T E buffer n hn] at h
    obtain ⟨o, -, ho⟩ := Option.map_eq_some'.mp h
    have hT' : T' = mapDelete T E.String := (congrArg Prod.fst ho).symm
    subst hT'
    rw [mem_mapKeys_mapDelete, hn, hasPrefix_append, leave_not_join]
    simp only [ne_eq, Bool.false_eq_true, and_false, and_true, false_or]
    constructor
    · exact fun ⟨a, b⟩ => ⟨b, fun e => a e.symm⟩
    · exact fun ⟨a, b⟩ => ⟨fun e => b e.symm, a⟩
  · rw [handle_ordinary p6 werr T E buffer hord] at h
    have hT' : T' = T := by
      cases hg : mapGet T E.String with
      | none => rw [hg] at h; exact (congrArg Prod.fst (Option.some.inj h)).symm
      | some N =>
        rw [hg] at h
        obtain ⟨o, -, ho⟩ := Option.map_eq_some'.mp h
        exact (congrArg Prod.fst ho).symm
    subst hT'
    simp [hord.1, hord.2]

/-- A datagram that is neither a join nor a leave from the endpoint filed under `key`
leaves the name stored under `key` as it was. -/
theorem handle_keeps_name (p6 : String → IP) (werr : Nat → Bool) (T T' : Clients)
    (E : UDPAddr) (buffer : String) (out : List Send)
    (h : handle p6 werr T E buffer = some (T', out)) (key : String)
    (hE : E.String = key → Ordinary (TrimSpace buffer)) :
    mapGet T' key = mapGet T key := by
  rcases message_cases (TrimSpace buffer) with ⟨n, hn⟩ | ⟨n, hn⟩ | hord
  · rw [handle_join p6 werr T E buffer n hn] at h
    obtain ⟨o, -, ho⟩ := Option.map_eq_some'.mp h
    have hT' : T' = mapSet T E.String n := (congrArg Prod.fst ho).symm
    subst hT'
    rw [mapGet_mapSet]
    by_cases hk : key = E.String
    · have := (hE hk.symm).1
      rw [hn, hasPrefix_append] at this
      cases this
    · simp [hk]
  · rw [handle_leave p6 werr T E buffer n hn] at h
    obtain ⟨o, -, ho⟩ := Option.map_eq_some'.mp h
    have hT' : T' = mapDelete T E.String := (congrArg Prod.fst ho).symm
    subst hT'
    rw [mapGet_mapDelete]
    by_cases hk : key = E.String
    · have := (hE hk.symm).2
      rw [hn, hasPrefix_append] at this
      cases this
    · simp [hk]
  · rw [handle_ordinary p6 werr T E buffer hord] at h
    have hT' : T' = T := by
      cases hg : mapGet T E.String with
      | none => rw [hg] at h; exact (congrArg Prod.fst (Option.some.inj h)).symm
      | some N =>
        rw [hg] at h
        obtain ⟨o, -, ho⟩ := Option.map_eq_some'.mp h
        exact (congrArg Prod.fst ho).symm
    rw [hT']

/-- The loop never panics from a well-formed table, and ends in a well-formed table. -/
theorem serve_total (p6 : String → IP) (T : Clients) (evs : List Event) (hT : WF T) :
    ∃ T' outs, serve p6 T evs = some (T', outs) ∧ WF T' := by
  induction evs generalizing T with
  | nil => exact ⟨T, [], rfl, hT⟩
  | cons e rest ih =>
    obtain ⟨T1, out, h1, hwf, -⟩ := handle_total p6 e.werr T e.clientAddr e.data hT
    obtain ⟨T2, outs, h2, hwf2⟩ := ih T1 hwf
    exact ⟨T2, out :: outs, by simp [serve, h1, h2], hwf2⟩

theorem serve_cons (p6 : String → IP) (T T1 T2 : Clients) (e : Event) (rest : List Event)
    (out : List Send) (outs : List (List Send))
    (h1 : handle p6 e.werr T e.clientAddr e.data = some (T1, out))
    (h2 : serve p6 T1 rest = some (T2, outs)) :
    serve p6 T (e :: rest) = some (T2, out :: outs) := by
  simp [serve, h1, h2]

/-- Datagrams that are neither joins nor leaves from the endpoint filed under `key` leave
the name stored under `key` as it was. -/
theorem serve_keeps_name (p6 : String → IP) (T T' : Clients) (evs : List Event)
    (outs : List (List Send)) (key : String) (hT : WF T)
    (h : serve p6 T evs = some (T', outs))
    (hevs : ∀ e ∈ evs, e.clientAddr.String = key → Ordinary (TrimSpace e.data)) :
    mapGet T' key = mapGet T key := by
  induction evs generalizing T outs with
  | nil =>
    simp only [serve, Option.some.injEq, Prod.mk.injEq] at h
    rw [h.1]
  | cons e rest ih =>
    obtain ⟨T1, out, h1, hwf, -⟩ := handle_total p6 e.werr T e.clientAddr e.data hT
    obtain ⟨T2, outs', h2, -⟩ := serve_total p6 T1 rest hwf
    rw [serve_cons p6 T T1 T2 e rest out outs' h1 h2] at h
    have hT2 : T2 = T' := congrArg Prod.fst (Option.some.inj h)
    subst hT2
    rw [ih T1 outs' hwf h2 (fun e' he' => hevs e' (List.mem_cons_of_mem _ he')),
      handle_keeps_name p6 e.werr T T1 e.clientAddr e.data out h1 key
        (hevs e (List.mem_cons_self _ _))]

/-- Membership of a key after a run of the loop from any well-formed table: either some
join from that endpoint has no later leave from it, or the key was there at the start and
no leave from the endpoint occurs at all. -/
theorem serve_mem_keys (p6 : String → IP) (T T' : Clients) (evs : List Event)
    (outs : List (List Send)) (key : String) (hT : WF T)
    (h : serve p6 T evs = some (T', outs)) :
    key ∈ mapKeys T' ↔
      (∃ pre e post, evs = pre ++ e :: post ∧ e.isJoinFrom key ∧
        ∀ e' ∈ post, ¬ e'.isLeaveFrom key) ∨
      (key ∈ mapKeys T ∧ ∀ e' ∈ evs, ¬ e'.isLeaveFrom key) := by
  induction evs generalizing T outs with
  | nil =>
    simp only [serve, Option.some.injEq, Prod.mk.injEq] at h
    rw [← h.1]
    simp
  | cons e rest ih =>
    obtain ⟨T1, out, h1, hwf, -⟩ := handle_total p6 e.werr T e.clientAddr e.data hT
    obtain ⟨T2, outs', h2, -⟩ := serve_total p6 T1 rest hwf
    rw [serve_cons p6 T T1 T2 e rest out outs' h1 h2] at h
    have hT2 : T2 = T' := congrArg Prod.fst (Option.some.inj h)
    subst hT2
    rw [ih T1 outs' hwf h2, handle_mem_keys p6 e.werr T T1 e.clientAddr e.data out h1 key]
    constructor
    · rintro (⟨pre, e0, post, hsplit, hj, hl⟩ | ⟨hk | ⟨hk, hnl⟩, hl⟩)
      · exact Or.inl ⟨e :: pre, e0, post, by simp [hsplit], hj, hl⟩
      · exact Or.inl ⟨[], e, rest, rfl, hk, hl⟩
      · refine Or.inr ⟨hk, ?_⟩
        intro e' he'
        rcases List.mem_cons.mp he' with rfl | he'
        · exact hnl
        · exact hl e' he'
    · rintro (⟨pre, e0, post, hsplit, hj, hl⟩ | ⟨hk, hl⟩)
      · cases pre with
        | nil =>
          simp only [List.nil_append, List.cons.injEq] at hsplit
          obtain ⟨rfl, rfl⟩ := hsplit
          exact Or.inr ⟨Or.inl hj, hl⟩
        | cons a pre =>
          simp only [List.cons_append, List.cons.injEq] at hsplit
          obtain ⟨rfl, rfl⟩ := hsplit
          exact Or.inl ⟨pre, e0, post, rfl, hj, hl⟩
      · exact Or.inr ⟨Or.inr ⟨hk, hl e (List.mem_cons_self _ _)⟩,
          fun e' he' => hl e' (List.mem_cons_of_mem _ he')⟩

/-- What the broadcast loop attempts does not depend on the outcomes of the writes. -/
theorem fanOut_attempts_indep (p6 : String → IP) (w1 w2 : Nat → Bool) (payload : String)
    (skip : Option String) (ks : List String) (i j : Nat) :
    (fanOut p6 w1 payload skip ks i).map (List.map Send.attempt) =
      (fanOut p6 w2 payload skip ks j).map (List.map Send.attempt) := by
  induction ks generalizing i j with
  | nil => simp [fanOut]
  | cons k ks ih =>
    by_cases hs : skip = some k
    · simpa [fanOut, hs] using ih i j
    · cases hd : destOf p6 k with
      | none => simp [fanOut, hs, hd]
      | some d =>
        have := ih (i + 1) (j + 1)
        cases h1 : fanOut p6 w1 payload skip ks (i + 1) <;>
          cases h2 : fanOut p6 w2 payload skip ks (j + 1) <;>
          simp [h1, h2] at this <;>
          simp [fanOut, hs, hd, h1, h2, Send.attempt]
        simpa [Send.attempt] using this

/-- The table a handling produces and the writes it attempts do not depend on the outcomes
of the writes. -/
theorem handle_attempts_indep (p6 : String → IP) (w1 w2 : Nat → Bool) (T : Clients)
    (E : UDPAddr) (buffer : String) :
    (handle p6 w1 T E buffer).map (fun r => (r.1, r.2.map Send.attempt)) =
      (handle p6 w2 T E buffer).map (fun r => (r.1, r.2.map Send.attempt)) := by
  have key : ∀ (payload : String) (skip : Option String) (T' : Clients),
      ((fanOut p6 w1 payload skip (mapKeys T') 0).map (fun out => (T', out))).map
          (fun r => (r.1, r.2.map Send.attempt)) =
        ((fanOut p6 w2 payload skip (mapKeys T') 0).map (fun out => (T', out))).map
          (fun r => (r.1, r.2.map Send.attempt)) := by
    intro payload skip T'
    have := fanOut_attempts_indep p6 w1 w2 payload skip (mapKeys T') 0 0
    cases h1 : fanOut p6 w1 payload skip (mapKeys T') 0 <;>
      cases h2 : fanOut p6 w2 payload skip (mapKeys T') 0 <;>
      simp [h1, h2] at this <;> simp [this]
  unfold handle
  simp only []
  split
  · exact key _ _ _
  · split
    · exact key _ _ _
    · split
      · exact key _ _ _
      · rfl

/-- On keys of host:port shape (distinct or not) the handler completes; each write records
the outcome of its position and the destination rebuilt from its key; and every key of the
new table is the sender's or an old one. -/
theorem handle_completes (p6 : String → IP) (werr : Nat → Bool) (T : Clients) (E : UDPAddr)
    (buffer : String) (hT : ∀ k ∈ mapKeys T, HasColon k) :
    ∃ T' out, handle p6 werr T E buffer = some (T', out) ∧
      out.map Send.failed = (List.range out.length).map werr ∧
      (∀ s ∈ out, destOf p6 s.addr = some s.dest) ∧
      ∀ k ∈ mapKeys T', k = E.String ∨ k ∈ mapKeys T := by
  rcases message_cases (TrimSpace buffer) with ⟨n, hn⟩ | ⟨n, hn⟩ | hord
  · have hc : ∀ k ∈ mapKeys (mapSet T E.String n), HasColon k := by
      intro k hk
      rcases (mem_mapKeys_mapSet T E.String n k).mp hk with rfl | h
      · exact udpAddr_string_colon E
      · exact hT k h
    obtain ⟨out, h1, -, h3, h4⟩ :=
      fanOut_spec p6 werr (n ++ " has joined the chat.") (some E.String) _ hc 0
    refine ⟨_, out, ?_, ?_, h4, fun k hk => (mem_mapKeys_mapSet T E.String n k).mp hk⟩
    · rw [handle_join p6 werr T E buffer n hn, h1]; rfl
    · rw [h3, List.range_eq_range']
  · have hc : ∀ k ∈ mapKeys (mapDelete T E.String), HasColon k :=
      fun k hk => hT k ((mem_mapKeys_mapDelete T E.String k).mp hk).2
    obtain ⟨out, h1, -, h3, h4⟩ :=
      fanOut_spec p6 werr (n ++ " has left the chat.") none _ hc 0
    refine ⟨_, out, ?_, ?_, h4,
      fun k hk => Or.inr ((mem_mapKeys_mapDelete T E.String k).mp hk).2⟩
    · rw [handle_leave p6 werr T E buffer n hn, h1]; rfl
    · rw [h3, List.range_eq_range']
  · rw [handle_ordinary p6 werr T E buffer hord]
    cases hg : mapGet T E.String with
    | none => exact ⟨T, [], rfl, by simp, by simp, fun k hk => Or.inr hk⟩
    | some N =>
      obtain ⟨out, h1, -, h3, h4⟩ :=
        fanOut_spec p6 werr ("[" ++ N ++ "]: " ++ TrimSpace buffer) (some E.String) _ hT 0
      refine ⟨T, out, by simp [h1], ?_, h4, fun k hk => Or.inr hk⟩
      rw [h3, List.range_eq_range']

/-- The broadcast loop over a single other key makes one write, for that key. -/
theorem fanOut_single (p6 : String → IP) (werr : Nat → Bool) (payload : String)
    (skip : Option String) (k : String) (hk : HasColon k) (hs : skip ≠ some k) :
    ∃ out, fanOut p6 werr payload skip [k] 0 = some out ∧
      out.map Send.call = [(k, payload)] := by
  obtain ⟨out, h1, h2, -, -⟩ := fanOut_spec p6 werr payload skip [k]
    (fun k' hk' => by rw [List.mem_singleton.mp hk']; exact hk) 0
  exact ⟨out, h1, by simpa [hs] using h2⟩

/-! ## The claims -/

/-- C1. JOIN handling: when the trimmed text is "JOIN:" followed by `n`, the handler
completes; the new table is the old one with the sender's key mapped to `n` (inserted or
overwritten, every other entry as before, keys still distinct); and the writes are exactly
one "n has joined the chat." for each key of the new table other than the sender's, none
for the sender's key and no other write. -/
theorem join_upserts_and_notifies_others (p6 : String → IP) (werr : Nat → Bool)
    (T : Clients) (E : UDPAddr) (buffer n : String)
    (hT : WF T) (hmsg : TrimSpace buffer = "JOIN:" ++ n) :
    ∃ T' out, handle p6 werr T E buffer = some (T', out) ∧
      (mapKeys T').Nodup ∧
      (∀ k, k ∈ mapKeys T' ↔ k = E.String ∨ k ∈ mapKeys T) ∧
      (∀ k, mapGet T' k = if k = E.String then some n else mapGet T k) ∧
      (∀ k t, (out.map Send.call).count (k, t) =
        if k ∈ mapKeys T' ∧ k ≠ E.String ∧ t = n ++ " has joined the chat." then 1 else 0) ∧
      (∀ t, (out.map Send.call).count (E.String, t) = 0) := by
  have hwf := wf_mapSet T E.String n hT (udpAddr_string_colon E)
  obtain ⟨out, h1, -, h3⟩ :=
    fanOut_count p6 werr (n ++ " has joined the chat.") (some E.String) _ hwf.1 hwf.2
  refine ⟨mapSet T E.String n, out, ?_, hwf.1, mem_mapKeys_mapSet T E.String n,
    mapGet_mapSet T E.String n, ?_, ?_⟩
  · rw [handle_join p6 werr T E buffer n hmsg, h1]; rfl
  · intro k t
    rw [h3]
    have : (some E.String ≠ some k) ↔ k ≠ E.String := by
      simp only [ne_eq, Option.some.injEq]
      exact ⟨fun h e => h e.symm, fun h e => h e.symm⟩
    simp only [this]
  · intro t
    rw [h3]
    simp

/-- Witness of C1: an IPv4 member and a second endpoint that joins as bob. -/
theorem join_upserts_and_notifies_others_witness :
    WF [("127.0.0.1:5000", "alice")] ∧ TrimSpace "JOIN:bob\n" = "JOIN:" ++ "bob" ∧
    ∃ T' out, handle (fun _ => []) (fun _ => false) [("127.0.0.1:5000", "alice")]
        ⟨[10, 0, 0, 2], 6000, ""⟩ "JOIN:bob\n" = some (T', out) ∧
      (mapKeys T').Nodup ∧
      (∀ k, k ∈ mapKeys T' ↔
        k = UDPAddr.String ⟨[10, 0, 0, 2], 6000, ""⟩ ∨ k ∈ mapKeys [("127.0.0.1:5000", "alice")]) ∧
      (∀ k, mapGet T' k = if k = UDPAddr.String ⟨[10, 0, 0, 2], 6000, ""⟩ then some "bob"
        else mapGet [("127.0.0.1:5000", "alice")] k) ∧
      (∀ k t, (out.map Send.call).count (k, t) =
        if k ∈ mapKeys T' ∧ k ≠ UDPAddr.String ⟨[10, 0, 0, 2], 6000, ""⟩ ∧
          t = "bob" ++ " has joined the chat." then 1 else 0) ∧
      (∀ t, (out.map Send.call).count (UDPAddr.String ⟨[10, 0, 0, 2], 6000, ""⟩, t) = 0) :=
  ⟨by decide, by decide,
    join_upserts_and_notifies_others (fun _ => []) (fun _ => false) [("127.0.0.1:5000", "alice")]
      ⟨[10, 0, 0, 2], 6000, ""⟩ "JOIN:bob\n" "bob" (by decide) (by decide)⟩

/-- C2. Ordinary-message handling: when the trimmed text starts with neither "JOIN:" nor
"LEAVE:", the handler completes and leaves the table as it was; a sender whose key is not
in the table causes no write; a sender whose key is in the table has an entry, and with
`N` the name of that entry the writes are exactly one "[N]: text" for each key of the
table other than the sender's, and no other write. -/
theorem ordinary_message_relayed_to_others (p6 : String → IP) (werr : Nat → Bool)
    (T : Clients) (E : UDPAddr) (buffer : String)
    (hT : WF T) (hord : Ordinary (TrimSpace buffer)) :
    ∃ out, handle p6 werr T E buffer = some (T, out) ∧
      (E.String ∉ mapKeys T → out = []) ∧
      (E.String ∈ mapKeys T → ∃ N, (E.String, N) ∈ T) ∧
      (∀ N, (E.String, N) ∈ T →
        ∀ k t, (out.map Send.call).count (k, t) =
          if k ∈ mapKeys T ∧ k ≠ E.String ∧ t = "[" ++ N ++ "]: " ++ TrimSpace buffer
          then 1 else 0) := by
  obtain ⟨out, h1, h2, h3⟩ := handle_ordinary_count p6 werr T E buffer hT hord
  refine ⟨out, h1, h2, ?_, ?_⟩
  · intro hk
    obtain ⟨e, he, hek⟩ := List.mem_map.mp hk
    exact ⟨e.2, by rw [← hek]; exact he⟩
  · intro N hN
    exact h3 N (mapGet_of_mem T E.String N hT.1 hN)

/-- Witness of C2: alice (IPv4) says "hi" while bob is a member; the one write is
"[alice]: hi" for bob's key. -/
theorem ordinary_message_relayed_to_others_witness :
    WF [("127.0.0.1:5000", "alice"), ("10.0.0.2:6000", "bob")] ∧ Ordinary (TrimSpace " hi\n") ∧
    (UDPAddr.String ⟨[127, 0, 0, 1], 5000, ""⟩, "alice") ∈
      [("127.0.0.1:5000", "alice"), ("10.0.0.2:6000", "bob")] ∧
    ∃ out, handle (fun _ => []) (fun _ => false)
        [("127.0.0.1:5000", "alice"), ("10.0.0.2:6000", "bob")]
        ⟨[127, 0, 0, 1], 5000, ""⟩ " hi\n" =
          some ([("127.0.0.1:5000", "alice"), ("10.0.0.2:6000", "bob")], out) ∧
      (∀ k t, (out.map Send.call).count (k, t) =
        if k ∈ mapKeys [("127.0.0.1:5000", "alice"), ("10.0.0.2:6000", "bob")] ∧
          k ≠ UDPAddr.String ⟨[127, 0, 0, 1], 5000, ""⟩ ∧
          t = "[" ++ "alice" ++ "]: " ++ TrimSpace " hi\n"
        then 1 else 0) ∧
      (out.map Send.call).count ("10.0.0.2:6000", "[alice]: hi") = 1 :=
  have hm : (UDPAddr.String ⟨[127, 0, 0, 1], 5000, ""⟩, "alice") ∈
      [("127.0.0.1:5000", "alice"), ("10.0.0.2:6000", "bob")] := by decide
  match ordinary_message_relayed_to_others (fun _ => []) (fun _ => false)
      [("127.0.0.1:5000", "alice"), ("10.0.0.2:6000", "bob")]
      ⟨[127, 0, 0, 1], 5000, ""⟩ " hi\n" (by decide) (by decide) with
  | ⟨out, h, _, _, h3⟩ =>
    ⟨by decide, by decide, hm, out, h, h3 "alice" hm,
      (h3 "alice" hm "10.0.0.2:6000" "[alice]: hi").trans (by decide)⟩

/-- C3. LEAVE handling: when the trimmed text is "LEAVE:" followed by `n`, the handler
completes; the new table is the old one without the sender's key (the old table itself when
the sender had no entry); the writes are exactly one "n has left the chat." for each key of
the new table, with `n` taken from the datagram whatever name was stored; and a second
identical LEAVE leaves that table unchanged and again makes exactly one such write for
each of its keys. -/
theorem leave_removes_and_notifies_remaining (p6 : String → IP) (werr werr2 : Nat → Bool)
    (T : Clients) (E : UDPAddr) (buffer n : String)
    (hT : WF T) (hmsg : TrimSpace buffer = "LEAVE:" ++ n) :
    ∃ T' out, handle p6 werr T E buffer = some (T', out) ∧
      (mapKeys T').Nodup ∧
      (∀ k, k ∈ mapKeys T' ↔ k ≠ E.String ∧ k ∈ mapKeys T) ∧
      (∀ k, mapGet T' k = if k = E.String then none else mapGet T k) ∧
      (E.String ∉ mapKeys T → T' = T) ∧
      (∀ k t, (out.map Send.call).count (k, t) =
        if k ∈ mapKeys T' ∧ t = n ++ " has left the chat." then 1 else 0) ∧
      ∃ out2, handle p6 werr2 T' E buffer = some (T', out2) ∧
        ∀ k t, (out2.map Send.call).count (k, t) =
          if k ∈ mapKeys T' ∧ t = n ++ " has left the chat." then 1 else 0 := by
  have hwf := wf_mapDelete T E.String hT
  have hnot : E.String ∉ mapKeys (mapDelete T E.String) := by
    rw [mem_mapKeys_mapDelete]
    exact fun h => h.1 rfl
  have hidem : mapDelete (mapDelete T E.String) E.String = mapDelete T E.String :=
    mapDelete_of_not_mem _ _ hnot
  obtain ⟨out, h1, -, h3⟩ :=
    fanOut_count p6 werr (n ++ " has left the chat.") none _ hwf.1 hwf.2
  obtain ⟨out2, g1, -, g3⟩ :=
    fanOut_count p6 werr2 (n ++ " has left the chat.") none _ hwf.1 hwf.2
  refine ⟨mapDelete T E.String, out, ?_, hwf.1, mem_mapKeys_mapDelete T E.String,
    mapGet_mapDelete T E.String, mapDelete_of_not_mem T E.String, ?_, out2, ?_, ?_⟩
  · rw [handle_leave p6 werr T E buffer n hmsg, h1]; rfl
  · intro k t
    rw [h3]
    simp
  · rw [handle_leave p6 werr2 _ E buffer n hmsg, hidem, g1]; rfl
  · intro k t
    rw [g3]
    simp

/-- Witness of C3: bob leaves under the name "robert" while alice stays. -/
theorem leave_removes_and_notifies_remaining_witness :
    WF [("127.0.0.1:5000", "alice"), ("10.0.0.2:6000", "bob")] ∧
    TrimSpace "LEAVE:robert" = "LEAVE:" ++ "robert" ∧
    ∃ T' out, handle (fun _ => []) (fun _ => false)
        [("127.0.0.1:5000", "alice"), ("10.0.0.2:6000", "bob")]
        ⟨[10, 0, 0, 2], 6000, ""⟩ "LEAVE:robert" = some (T', out) ∧
      (mapKeys T').Nodup ∧
      (∀ k, k ∈ mapKeys T' ↔ k ≠ UDPAddr.String ⟨[10, 0, 0, 2], 6000, ""⟩ ∧
        k ∈ mapKeys [("127.0.0.1:5000", "alice"), ("10.0.0.2:6000", "bob")]) ∧
      (∀ k, mapGet T' k = if k = UDPAddr.String ⟨[10, 0, 0, 2], 6000, ""⟩ then none
        else mapGet [("127.0.0.1:5000", "alice"), ("10.0.0.2:6000", "bob")] k) ∧
      (UDPAddr.String ⟨[10, 0, 0, 2], 6000, ""⟩ ∉
          mapKeys [("127.0.0.1:5000", "alice"), ("10.0.0.2:6000", "bob")] →
        T' = [("127.0.0.1:5000", "alice"), ("10.0.0.2:6000", "bob")]) ∧
      (∀ k t, (out.map Send.call).count (k, t) =
        if k ∈ mapKeys T' ∧ t = "robert" ++ " has left the chat." then 1 else 0) ∧
      ∃ out2, handle (fun _ => []) (fun _ => true) T' ⟨[10, 0, 0, 2], 6000, ""⟩ "LEAVE:robert" =
          some (T', out2) ∧
        ∀ k t, (out2.map Send.call).count (k, t) =
          if k ∈ mapKeys T' ∧ t = "robert" ++ " has left the chat." then 1 else 0 :=
  ⟨by decide, by decide,
    leave_removes_and_notifies_remaining (fun _ => []) (fun _ => false) (fun _ => true)
      [("127.0.0.1:5000", "alice"), ("10.0.0.2:6000", "bob")]
      ⟨[10, 0, 0, 2], 6000, ""⟩ "LEAVE:robert" "robert" (by decide) (by decide)⟩

/-- C4, the code at a failing input. The only member, alice, has the IPv6 endpoint
`[2001:1234::1]:54321`; `[::1]:1234` sends "JOIN:bob" and then "hello".  No write is made
for the sender's own key, but the write made for alice's key is addressed to the
destination rebuilt from that key, which has a nil IP and the port 1234: the second group
of alice's address read as a number, which is the sender's port.  Both the join notice
and the sender's own chat line go to that destination. -/
theorem notice_addressed_to_port_of_sender (p6 : String → IP) :
    WF [("[2001:1234::1]:54321", "alice")] ∧
    UDPAddr.Valid ⟨[0x20, 0x01, 0x12, 0x34, 0, 0, 0, 0, 0, 0, 0, 0, 0, 0, 0, 1], 54321, ""⟩ ∧
    UDPAddr.String ⟨[0x20, 0x01, 0x12, 0x34, 0, 0, 0, 0, 0, 0, 0, 0, 0, 0, 0, 1], 54321, ""⟩ =
      "[2001:1234::1]:54321" ∧
    UDPAddr.Valid ⟨[0, 0, 0, 0, 0, 0, 0, 0, 0, 0, 0, 0, 0, 0, 0, 1], 1234, ""⟩ ∧
    UDPAddr.String ⟨[0, 0, 0, 0, 0, 0, 0, 0, 0, 0, 0, 0, 0, 0, 0, 1], 1234, ""⟩ = "[::1]:1234" ∧
    Split "[2001:1234::1]:54321" ':' = ["[2001", "1234", "", "1]", "54321"] ∧
    addrPort "[2001:1234::1]:54321" = some 1234 ∧
    handle p6 (fun _ => false) [("[2001:1234::1]:54321", "alice")]
        ⟨[0, 0, 0, 0, 0, 0, 0, 0, 0, 0, 0, 0, 0, 0, 0, 1], 1234, ""⟩ "JOIN:bob" =
      some ([("[2001:1234::1]:54321", "alice"), ("[::1]:1234", "bob")],
        [{ addr := "[2001:1234::1]:54321", payload := "bob has joined the chat.",
           dest := ⟨[], 1234, ""⟩, failed := false }]) ∧
    handle p6 (fun _ => false) [("[2001:1234::1]:54321", "alice"), ("[::1]:1234", "bob")]
        ⟨[0, 0, 0, 0, 0, 0, 0, 0, 0, 0, 0, 0, 0, 0, 0, 1], 1234, ""⟩ "hello" =
      some ([("[2001:1234::1]:54321", "alice"), ("[::1]:1234", "bob")],
        [{ addr := "[2001:1234::1]:54321", payload := "[bob]: hello",
           dest := ⟨[], 1234, ""⟩, failed := false }]) := by
  refine ⟨by decide, by decide, by decide, by decide, by decide, by decide, by decide, ?_, ?_⟩ <;>
    rfl

/-- C5. Join visibility: after a JOIN with name `n` from `E1` and any finite sequence of
further datagrams none of which is a JOIN or LEAVE from `E1`, the relay has not panicked,
and an ordinary message from `E1` leaves the table as it is and causes exactly one write
"[n]: text" for every other key of the table; every write made for it has that text. -/
theorem join_visibility (p6 : String → IP) (werr werr2 : Nat → Bool) (T : Clients)
    (E1 : UDPAddr) (buffer n : String) (evs : List Event) (msg : String)
    (hT : WF T) (hjoin : TrimSpace buffer = "JOIN:" ++ n)
    (hevs : ∀ e ∈ evs, e.clientAddr.String = E1.String → Ordinary (TrimSpace e.data))
    (hord : Ordinary (TrimSpace msg)) :
    ∃ T1 out1 T2 outs out,
      handle p6 werr T E1 buffer = some (T1, out1) ∧
      serve p6 T1 evs = some (T2, outs) ∧
      handle p6 werr2 T2 E1 msg = some (T2, out) ∧
      (∀ k t, (out.map Send.call).count (k, t) =
        if k ∈ mapKeys T2 ∧ k ≠ E1.String ∧ t = "[" ++ n ++ "]: " ++ TrimSpace msg
        then 1 else 0) ∧
      ∀ s ∈ out, s.payload = "[" ++ n ++ "]: " ++ TrimSpace msg := by
  obtain ⟨T1, out1, h1, hwf1, -⟩ := handle_total p6 werr T E1 buffer hT
  obtain ⟨T2, outs, h2, hwf2⟩ := serve_total p6 T1 evs hwf1
  have hT1 : T1 = mapSet T E1.String n := by
    rw [handle_join p6 werr T E1 buffer n hjoin] at h1
    obtain ⟨o, -, ho⟩ := Option.map_eq_some'.mp h1
    exact (congrArg Prod.fst ho).symm
  have hname : mapGet T2 E1.String = some n := by
    rw [serve_keeps_name p6 T1 T2 evs outs E1.String hwf1 h2 hevs, hT1, mapGet_mapSet]
    simp
  obtain ⟨out, g1, -, g3⟩ := handle_ordinary_count p6 werr2 T2 E1 msg hwf2 hord
  refine ⟨T1, out1, T2, outs, out, h1, h2, g1, g3 n hname, ?_⟩
  intro s hs
  have hc : 0 < (out.map Send.call).count s.call :=
    List.count_pos_iff.mpr (List.mem_map_of_mem _ hs)
  have := g3 n hname s.addr s.payload
  rw [show (s.addr, s.payload) = s.call from rfl] at this
  rw [this] at hc
  by_contra hne
  simp [hne] at hc

/-- Witness of C5: alice joins, bob joins and speaks, then alice speaks. -/
theorem join_visibility_witness :
    WF [] ∧ TrimSpace "JOIN:alice" = "JOIN:" ++ "alice" ∧
    (∀ e ∈ [Event.mk ⟨[10, 0, 0, 2], 6000, ""⟩ "JOIN:bob" (fun _ => false),
            Event.mk ⟨[10, 0, 0, 2], 6000, ""⟩ "yo" (fun _ => false)],
      e.clientAddr.String = UDPAddr.String ⟨[127, 0, 0, 1], 5000, ""⟩ →
        Ordinary (TrimSpace e.data)) ∧
    Ordinary (TrimSpace "hi") ∧
    ∃ T1 out1 T2 outs out,
      handle (fun _ => []) (fun _ => false) [] ⟨[127, 0, 0, 1], 5000, ""⟩ "JOIN:alice" =
        some (T1, out1) ∧
      serve (fun _ => []) T1
        [Event.mk ⟨[10, 0, 0, 2], 6000, ""⟩ "JOIN:bob" (fun _ => false),
         Event.mk ⟨[10, 0, 0, 2], 6000, ""⟩ "yo" (fun _ => false)] = some (T2, outs) ∧
      handle (fun _ => []) (fun _ => false) T2 ⟨[127, 0, 0, 1], 5000, ""⟩ "hi" = some (T2, out) ∧
      (∀ k t, (out.map Send.call).count (k, t) =
        if k ∈ mapKeys T2 ∧ k ≠ UDPAddr.String ⟨[127, 0, 0, 1], 5000, ""⟩ ∧
          t = "[" ++ "alice" ++ "]: " ++ TrimSpace "hi"
        then 1 else 0) ∧
      ∀ s ∈ out, s.payload = "[" ++ "alice" ++ "]: " ++ TrimSpace "hi" :=
  ⟨by decide, by decide, by decide, by decide,
    join_visibility (fun _ => []) (fun _ => false) (fun _ => false) []
      ⟨[127, 0, 0, 1], 5000, ""⟩ "JOIN:alice" "alice"
      [Event.mk ⟨[10, 0, 0, 2], 6000, ""⟩ "JOIN:bob" (fun _ => false),
       Event.mk ⟨[10, 0, 0, 2], 6000, ""⟩ "yo" (fun _ => false)] "hi"
      (by decide) (by decide) (by decide) (by decide)⟩

/-- C6. Membership invariant: the relay, started with an empty table and fed any finite
sequence of datagrams, does not panic, and the key of an endpoint is in the resulting table
exactly when the endpoint has sent a JOIN with no LEAVE from it afterwards; so when its
latest JOIN-or-LEAVE is a LEAVE, an ordinary message from it changes nothing and causes no
write. -/
theorem membership_invariant (p6 : String → IP) (evs : List Event) (E : UDPAddr) :
    ∃ T outs, startServer p6 evs = some (T, outs) ∧
      (E.String ∈ mapKeys T ↔
        ∃ pre e post, evs = pre ++ e :: post ∧ e.isJoinFrom E.String ∧
          ∀ e' ∈ post, ¬ e'.isLeaveFrom E.String) ∧
      ((∃ pre e post, evs = pre ++ e :: post ∧ e.isLeaveFrom E.String ∧
          ∀ e' ∈ post, ¬ e'.isJoinFrom E.String) →
        ∀ werr msg, Ordinary (TrimSpace msg) → handle p6 werr T E msg = some (T, [])) := by
  have hwf0 : WF ([] : Clients) := by decide
  obtain ⟨T, outs, h, hwf⟩ := serve_total p6 [] evs hwf0
  have hiff := serve_mem_keys p6 [] T evs outs E.String hwf0 h
  have hiff' : E.String ∈ mapKeys T ↔
      ∃ pre e post, evs = pre ++ e :: post ∧ e.isJoinFrom E.String ∧
        ∀ e' ∈ post, ¬ e'.isLeaveFrom E.String := by
    rw [hiff]
    simp [mapKeys]
  refine ⟨T, outs, h, hiff', ?_⟩
  rintro ⟨pre, e, post, hsplit, hleave, hnojoin⟩ werr msg hord
  have hnot : E.String ∉ mapKeys T := by
    rw [hiff']
    rintro ⟨pre', e', post', hsplit', hjoin, hnoleave⟩
    rw [hsplit] at hsplit'
    rcases List.append_eq_append_iff.mp hsplit' with ⟨a', ha1, ha2⟩ | ⟨c', hc1, hc2⟩
    · -- pre' = pre ++ a', e :: post = a' ++ e' :: post'
      cases a' with
      | nil =>
        simp only [List.nil_append, List.cons.injEq] at ha2
        obtain ⟨rfl, -⟩ := ha2
        have h1 := hjoin.2
        have h2 := hleave.2
        rcases message_cases (TrimSpace e.data) with ⟨n, hn⟩ | ⟨n, hn⟩ | ho
        · rw [hn, join_not_leave] at h2; cases h2
        · rw [hn, leave_not_join] at h1; cases h1
        · rw [ho.1] at h1; cases h1
      | cons x a' =>
        simp only [List.cons_append, List.cons.injEq] at ha2
        obtain ⟨-, rfl⟩ := ha2
        exact hnojoin e' (by simp) hjoin
    · -- pre = pre' ++ c', e' :: post' = c' ++ e :: post
      cases c' with
      | nil =>
        simp only [List.nil_append, List.cons.injEq] at hc2
        obtain ⟨rfl, -⟩ := hc2
        have h1 := hjoin.2
        have h2 := hleave.2
        rcases message_cases (TrimSpace e'.data) with ⟨n, hn⟩ | ⟨n, hn⟩ | ho
        · rw [hn, join_not_leave] at h2; cases h2
        · rw [hn, leave_not_join] at h1; cases h1
        · rw [ho.1] at h1; cases h1
      | cons x c' =>
        simp only [List.cons_append, List.cons.injEq] at hc2
        obtain ⟨-, rfl⟩ := hc2
        exact hnoleave e (by simp) hleave
  rw [handle_ordinary p6 werr T E msg hord, (mapGet_eq_none_iff T E.String).mpr hnot]

/-- Counterexample to C7 as stated: with alice the only member, a LEAVE datagram from an
endpoint that is not in the table (its text does not start with "JOIN:") makes the relay
write "bob has left the chat." to alice. -/
theorem leave_from_stranger_is_broadcast :
    WF [("127.0.0.1:5000", "alice")] ∧
    UDPAddr.String ⟨[10, 0, 0, 2], 6000, ""⟩ ∉ mapKeys [("127.0.0.1:5000", "alice")] ∧
    HasPrefix (TrimSpace "LEAVE:bob") "JOIN:" = false ∧
    handle (fun _ => []) (fun _ => false) [("127.0.0.1:5000", "alice")]
        ⟨[10, 0, 0, 2], 6000, ""⟩ "LEAVE:bob" =
      some ([("127.0.0.1:5000", "alice")],
        [{ addr := "127.0.0.1:5000", payload := "bob has left the chat.",
           dest := ⟨[0, 0, 0, 0, 0, 0, 0, 0, 0, 0, 255, 255, 127, 0, 0, 1], 5000, ""⟩,
           failed := false }]) := by
  decide

/-- C7, amended. For an endpoint whose key is not in the table: a datagram whose trimmed
text starts with neither "JOIN:" nor "LEAVE:" changes nothing and causes no write; a LEAVE
datagram also leaves the table as it is, but is announced with one "n has left the chat."
to every key of the table. -/
theorem stranger_ordinary_ignored_leave_announced (p6 : String → IP) (werr : Nat → Bool)
    (T : Clients) (E : UDPAddr) (buffer : String)
    (hT : WF T) (hE : E.String ∉ mapKeys T) :
    (Ordinary (TrimSpace buffer) → handle p6 werr T E buffer = some (T, [])) ∧
    (∀ n, TrimSpace buffer = "LEAVE:" ++ n →
      ∃ out, handle p6 werr T E buffer = some (T, out) ∧
        ∀ k t, (out.map Send.call).count (k, t) =
          if k ∈ mapKeys T ∧ t = n ++ " has left the chat." then 1 else 0) := by
  constructor
  · intro hord
    rw [handle_ordinary p6 werr T E buffer hord, (mapGet_eq_none_iff T E.String).mpr hE]
  · intro n hn
    obtain ⟨out, h1, -, h3⟩ := fanOut_count p6 werr (n ++ " has left the chat.") none _ hT.1 hT.2
    refine ⟨out, ?_, ?_⟩
    · rw [handle_leave p6 werr T E buffer n hn, mapDelete_of_not_mem T E.String hE, h1]; rfl
    · intro k t
      rw [h3]
      simp

/-- Witness of the amended C7: a stranger says "hello" to a table holding alice. -/
theorem stranger_ordinary_ignored_leave_announced_witness :
    WF [("127.0.0.1:5000", "alice")] ∧
    UDPAddr.String ⟨[10, 0, 0, 2], 6000, ""⟩ ∉ mapKeys [("127.0.0.1:5000", "alice")] ∧
    (Ordinary (TrimSpace "hello") →
      handle (fun _ => []) (fun _ => false) [("127.0.0.1:5000", "alice")]
        ⟨[10, 0, 0, 2], 6000, ""⟩ "hello" = some ([("127.0.0.1:5000", "alice")], [])) ∧
    (∀ n, TrimSpace "hello" = "LEAVE:" ++ n →
      ∃ out, handle (fun _ => []) (fun _ => false) [("127.0.0.1:5000", "alice")]
          ⟨[10, 0, 0, 2], 6000, ""⟩ "hello" = some ([("127.0.0.1:5000", "alice")], out) ∧
        ∀ k t, (out.map Send.call).count (k, t) =
          if k ∈ mapKeys [("127.0.0.1:5000", "alice")] ∧ t = n ++ " has left the chat."
          then 1 else 0) :=
  ⟨by decide, by decide,
    stranger_ordinary_ignored_leave_announced (fun _ => []) (fun _ => false)
      [("127.0.0.1:5000", "alice")] ⟨[10, 0, 0, 2], 6000, ""⟩ "hello" (by decide) (by decide)⟩

/-- C8, the code at failing inputs. For the IPv6 endpoints `[::1]:54321`,
`[2001:db8::1]:54321`, `[2001:1234::1]:54321` and `[fe80::1%eth0]:54321`, the destination
rebuilt from the key has a nil IP and the port 0, 0, 1234 and 0: the key is split at its
first colons, which lie inside the bracketed address.  So when bob joins a relay whose only
member is alice at `[::1]:54321`, the join notice is written to nil IP, port 0.  An IPv4
key is rebuilt as the endpoint it came from. -/
theorem destOf_ipv6_key_is_not_the_endpoint (p6 : String → IP) :
    UDPAddr.String ⟨[0, 0, 0, 0, 0, 0, 0, 0, 0, 0, 0, 0, 0, 0, 0, 1], 54321, ""⟩ = "[::1]:54321" ∧
    Split "[::1]:54321" ':' = ["[", "", "1]", "54321"] ∧
    destOf p6 "[::1]:54321" = some ⟨[], 0, ""⟩ ∧
    UDPAddr.String ⟨[0x20, 0x01, 0x0d, 0xb8, 0, 0, 0, 0, 0, 0, 0, 0, 0, 0, 0, 1], 54321, ""⟩ =
      "[2001:db8::1]:54321" ∧
    destOf p6 "[2001:db8::1]:54321" = some ⟨[], 0, ""⟩ ∧
    UDPAddr.String ⟨[0x20, 0x01, 0x12, 0x34, 0, 0, 0, 0, 0, 0, 0, 0, 0, 0, 0, 1], 54321, ""⟩ =
      "[2001:1234::1]:54321" ∧
    destOf p6 "[2001:1234::1]:54321" = some ⟨[], 1234, ""⟩ ∧
    UDPAddr.String ⟨[0xfe, 0x80, 0, 0, 0, 0, 0, 0, 0, 0, 0, 0, 0, 0, 0, 1], 54321, "eth0"⟩ =
      "[fe80::1%eth0]:54321" ∧
    destOf p6 "[fe80::1%eth0]:54321" = some ⟨[], 0, ""⟩ ∧
    handle p6 (fun _ => false) [("[::1]:54321", "alice")] ⟨[127, 0, 0, 1], 40000, ""⟩
        "JOIN:bob" =
      some ([("[::1]:54321", "alice"), ("127.0.0.1:40000", "bob")],
        [{ addr := "[::1]:54321", payload := "bob has joined the chat.",
           dest := ⟨[], 0, ""⟩, failed := false }]) ∧
    UDPAddr.String ⟨[192, 168, 1, 7], 54321, ""⟩ = "192.168.1.7:54321" ∧
    destOf p6 "192.168.1.7:54321" =
      some ⟨[0, 0, 0, 0, 0, 0, 0, 0, 0, 0, 255, 255, 192, 168, 1, 7], 54321, ""⟩ := by
  refine ⟨by decide, by decide, ?_, by decide, ?_, by decide, ?_, by decide, ?_, ?_,
    by decide, ?_⟩ <;> rfl

/-- C9. Handling one datagram never aborts the relay: on a table whose keys are texts of
UDP addresses, for every datagram and every pattern `werr` of failing writes, the handler
completes (no index out of range in `addrPort` or in building a destination); it yields
the same table and attempts the same writes, to the same entries with the same text and
destination, as when no write fails; the failures are the ones the transport reported;
and the keys of the new table are again texts of UDP addresses. -/
theorem handling_never_aborts (p6 : String → IP) (werr : Nat → Bool) (T : Clients)
    (E : UDPAddr) (buffer : String) (hT : ∀ k ∈ mapKeys T, IsEndpointKey k) :
    ∃ T' out out0,
      handle p6 werr T E buffer = some (T', out) ∧
      handle p6 (fun _ => false) T E buffer = some (T', out0) ∧
      out.map Send.attempt = out0.map Send.attempt ∧
      out.map Send.failed = (List.range out.length).map werr ∧
      (∀ s ∈ out, destOf p6 s.addr = some s.dest) ∧
      ∀ k ∈ mapKeys T', IsEndpointKey k := by
  have hc : ∀ k ∈ mapKeys T, HasColon k := fun k hk => hasColon_of_endpointKey (hT k hk)
  obtain ⟨T', out, h1, h2, h3, h4⟩ := handle_completes p6 werr T E buffer hc
  obtain ⟨T0, out0, g1, -, -, -⟩ := handle_completes p6 (fun _ => false) T E buffer hc
  have hi := handle_attempts_indep p6 werr (fun _ => false) T E buffer
  rw [h1, g1] at hi
  simp only [Option.map_some', Option.some.injEq, Prod.mk.injEq] at hi
  obtain ⟨rfl, hatt⟩ := hi
  refine ⟨T', out, out0, h1, g1, hatt, h2, h3, ?_⟩
  intro k hk
  rcases h4 k hk with rfl | h
  · exact ⟨E, rfl⟩
  · exact hT k h

/-- Witness of C9: a join announced to an IPv4 and an IPv6 member while every write fails. -/
theorem handling_never_aborts_witness :
    (∀ k ∈ mapKeys [("127.0.0.1:5000", "alice"), ("[::1]:7000", "carol")], IsEndpointKey k) ∧
    ∃ T' out out0,
      handle (fun _ => []) (fun _ => true)
        [("127.0.0.1:5000", "alice"), ("[::1]:7000", "carol")]
        ⟨[10, 0, 0, 2], 6000, ""⟩ "JOIN:bob" = some (T', out) ∧
      handle (fun _ => []) (fun _ => false)
        [("127.0.0.1:5000", "alice"), ("[::1]:7000", "carol")]
        ⟨[10, 0, 0, 2], 6000, ""⟩ "JOIN:bob" = some (T', out0) ∧
      out.map Send.attempt = out0.map Send.attempt ∧
      out.map Send.failed = (List.range out.length).map (fun _ => true) ∧
      (∀ s ∈ out, destOf (fun _ => []) s.addr = some s.dest) ∧
      ∀ k ∈ mapKeys T', IsEndpointKey k :=
  have hk : ∀ k ∈ mapKeys [("127.0.0.1:5000", "alice"), ("[::1]:7000", "carol")],
      IsEndpointKey k := by
    intro k hk
    simp only [mapKeys, List.map_cons, List.map_nil, List.mem_cons, List.mem_singleton,
      List.not_mem_nil, or_false] at hk
    rcases hk with rfl | rfl
    · exact ⟨⟨[127, 0, 0, 1], 5000, ""⟩, by decide⟩
    · exact ⟨⟨[0, 0, 0, 0, 0, 0, 0, 0, 0, 0, 0, 0, 0, 0, 0, 1], 7000, ""⟩, by decide⟩
  ⟨hk, handling_never_aborts (fun _ => []) (fun _ => true)
    [("127.0.0.1:5000", "alice"), ("[::1]:7000", "carol")]
    ⟨[10, 0, 0, 2], 6000, ""⟩ "JOIN:bob" hk⟩

/-- C10. End-to-end scenario: from the empty table, for two endpoints with different keys,
"JOIN:alice" from E1, "JOIN:bob" from E2, "hi" from E1, "LEAVE:bob" from E2 and "hi" from
E2 are handled without a panic; the writes, step by step, are: none; "bob has joined the
chat." for E1; "[alice]: hi" for E2; "bob has left the chat." for E1; none; and the final
table holds exactly E1 with the name alice. -/
theorem end_to_end_scenario (p6 : String → IP) (w1 w2 w3 w4 w5 : Nat → Bool)
    (E1 E2 : UDPAddr) (hne : E1.String ≠ E2.String) :
    ∃ outs,
      startServer p6
        [⟨E1, "JOIN:alice", w1⟩, ⟨E2, "JOIN:bob", w2⟩, ⟨E1, "hi", w3⟩,
         ⟨E2, "LEAVE:bob", w4⟩, ⟨E2, "hi", w5⟩] = some ([(E1.String, "alice")], outs) ∧
      outs.map (List.map Send.call) =
        [[], [(E1.String, "bob has joined the chat.")], [(E2.String, "[alice]: hi")],
         [(E1.String, "bob has left the chat.")], []] := by
  have hne' : ¬ E2.String = E1.String := fun e => hne e.symm
  have c1 := udpAddr_string_colon E1
  have c2 := udpAddr_string_colon E2
  -- step 1: alice joins an empty relay
  have s1 : handle p6 w1 [] E1 "JOIN:alice" = some ([(E1.String, "alice")], []) := by
    rw [handle_join p6 w1 [] E1 "JOIN:alice" "alice" (by decide)]
    simp [mapSet, mapKeys, fanOut]
  -- step 2: bob joins, alice is told
  obtain ⟨o2, f2, g2⟩ := fanOut_single p6 w2 ("bob" ++ " has joined the chat.")
    (some E2.String) E1.String c1 (by simpa using hne')
  have s2 : handle p6 w2 [(E1.String, "alice")] E2 "JOIN:bob" =
      some ([(E1.String, "alice"), (E2.String, "bob")], o2) := by
    rw [handle_join p6 w2 _ E2 "JOIN:bob" "bob" (by decide)]
    simp only [mapSet, hne, if_false, mapKeys, List.map_cons, List.map_nil]
    have : fanOut p6 w2 ("bob" ++ " has joined the chat.") (some E2.String)
        [E1.String, E2.String] 0 = some o2 := by
      have f2' := f2
      simp only [fanOut] at f2' ⊢
      simp only [Option.some.injEq, hne', if_false, if_true] at f2' ⊢
      exact f2'
    rw [this]; rfl
  -- step 3: alice speaks, bob hears
  obtain ⟨o3, f3, g3⟩ := fanOut_single p6 w3 ("[" ++ "alice" ++ "]: " ++ "hi")
    (some E1.String) E2.String c2 (by simpa using hne)
  have s3 : handle p6 w3 [(E1.String, "alice"), (E2.String, "bob")] E1 "hi" =
      some ([(E1.String, "alice"), (E2.String, "bob")], o3) := by
    rw [handle_ordinary p6 w3 _ E1 "hi" (by decide)]
    have ht : TrimSpace "hi" = "hi" := by decide
    simp only [mapGet, if_true, mapKeys, List.map_cons, List.map_nil, ht]
    have : fanOut p6 w3 ("[" ++ "alice" ++ "]: " ++ "hi") (some E1.String)
        [E1.String, E2.String] 0 = some o3 := by
      have f3' := f3
      simp only [fanOut] at f3' ⊢
      simp only [Option.some.injEq, hne, if_false, if_true] at f3' ⊢
      exact f3'
    rw [this]; rfl
  -- step 4: bob leaves, alice is told
  obtain ⟨o4, f4, g4⟩ := fanOut_single p6 w4 ("bob" ++ " has left the chat.")
    none E1.String c1 (by simp)
  have s4 : handle p6 w4 [(E1.String, "alice"), (E2.String, "bob")] E2 "LEAVE:bob" =
      some ([(E1.String, "alice")], o4) := by
    rw [handle_leave p6 w4 _ E2 "LEAVE:bob" "bob" (by decide)]
    simp only [mapDelete, hne, if_false, if_true, mapKeys, List.map_cons, List.map_nil]
    rw [f4]; rfl
  -- step 5: bob speaks after leaving
  have s5 : handle p6 w5 [(E1.String, "alice")] E2 "hi" = some ([(E1.String, "alice")], []) := by
    rw [handle_ordinary p6 w5 _ E2 "hi" (by decide)]
    simp [mapGet, hne]
  refine ⟨[[], o2, o3, o4, []], ?_, ?_⟩
  · simp [startServer, serve, s1, s2, s3, s4, s5]
  · simp only [List.map_cons, List.map_nil, g2, g3, g4]
    rfl

/-- Witness of C10: the scenario between `127.0.0.1:5000` and `10.0.0.2:6000`. -/
theorem end_to_end_scenario_witness :
    UDPAddr.String ⟨[127, 0, 0, 1], 5000, ""⟩ ≠ UDPAddr.String ⟨[10, 0, 0, 2], 6000, ""⟩ ∧
    ∃ outs,
      startServer (fun _ => [])
        [⟨⟨[127, 0, 0, 1], 5000, ""⟩, "JOIN:alice", fun _ => false⟩,
         ⟨⟨[10, 0, 0, 2], 6000, ""⟩, "JOIN:bob", fun _ => false⟩,
         ⟨⟨[127, 0, 0, 1], 5000, ""⟩, "hi", fun _ => false⟩,
         ⟨⟨[10, 0, 0, 2], 6000, ""⟩, "LEAVE:bob", fun _ => false⟩,
         ⟨⟨[10, 0, 0, 2], 6000, ""⟩, "hi", fun _ => false⟩] =
        some ([(UDPAddr.String ⟨[127, 0, 0, 1], 5000, ""⟩, "alice")], outs) ∧
      outs.map (List.map Send.call) =
        [[], [(UDPAddr.String ⟨[127, 0, 0, 1], 5000, ""⟩, "bob has joined the chat.")],
         [(UDPAddr.String ⟨[10, 0, 0, 2], 6000, ""⟩, "[alice]: hi")],
         [(UDPAddr.String ⟨[127, 0, 0, 1], 5000, ""⟩, "bob has left the chat.")], []] :=
  ⟨by decide,
    end_to_end_scenario (fun _ => []) (fun _ => false) (fun _ => false) (fun _ => false)
      (fun _ => false) (fun _ => false) ⟨[127, 0, 0, 1], 5000, ""⟩ ⟨[10, 0, 0, 2], 6000, ""⟩
      (by decide)⟩

end UDPChat
